import Mathlib

/-!
Verification of the csv-cleaner plan validation and execution engine.

This file shallowly embeds the core of the repository
(`src/pipeline/validate.py` and `src/pipeline/executor.py`, together with
the schema types of `src/llm/schemas.py`) into Lean and proves the frozen
claims about it.

Modelling conventions:
- pandas dataframes become `Dataset` (ordered column names plus rows of
  string cells); cells are text, as the source keeps them.
- Python strings are Lean `String`, manipulated through `List Char` so
  that every definition evaluates by kernel reduction.
- Python `float` values appearing in range rules are modelled by `ℚ`;
  the decimal renderings used in messages and in the numeric-parse
  pipeline are exact for the terminating decimals that actually occur
  in this development (Python repr of a double agrees with the minimal
  positional decimal form on such values).
- Python sets of column names become duplicate-free `List String` with
  membership-based insert and erase.
-/

namespace CsvCleaner

/-! ### String utilities (Python semantics on `List Char`) -/

/-- The whitespace characters stripped by Python `str.strip` and matched by
the regex class `\s` (restricted to ASCII; the data in this development is
ASCII). -/
def pyIsSpace (c : Char) : Bool :=
  c = ' ' || c = '\t' || c = '\n' || c = '\x0d' || c = '\x0b' || c = '\x0c'

/-- Python `str.strip` on a character list. -/
def pyStripL (l : List Char) : List Char :=
  ((l.dropWhile pyIsSpace).reverse.dropWhile pyIsSpace).reverse

/-- Python `str.strip`. -/
def pyStrip (s : String) : String :=
  String.mk (pyStripL s.data)

/-- Python `str.lower` (ASCII). -/
def pyLower (s : String) : String :=
  String.mk (s.data.map Char.toLower)

/-- Lexicographic comparison of character lists by code point, as Python
compares strings. -/
def charsLe : List Char → List Char → Bool
  | [], _ => true
  | _ :: _, [] => false
  | a :: as, b :: bs =>
    if a = b then charsLe as bs else decide (a.toNat < b.toNat)

/-- Python string comparison `s <= t`. -/
def pyStrLe (s t : String) : Bool :=
  charsLe s.data t.data

/-- Insert into a list sorted by `pyStrLe` (used to model Python `sorted`). -/
def insertSorted (x : String) : List String → List String
  | [] => [x]
  | y :: ys => if pyStrLe x y then x :: y :: ys else y :: insertSorted x ys

/-- Python `sorted` on a list of strings (insertion sort; stable, but the
inputs sorted in the source are sets, so stability is irrelevant). -/
def sortStrings (l : List String) : List String :=
  l.foldr insertSorted []

/-- Whether `p` is a prefix of `l` (boolean, by decidable equality). -/
def listStarts : List Char → List Char → Bool
  | [], _ => true
  | _ :: _, [] => false
  | a :: as, b :: bs => a = b && listStarts as bs

/-- Whether `p` occurs as a contiguous sublist of `l`. -/
def listSub (p : List Char) : List Char → Bool
  | [] => p.isEmpty
  | b :: bs => listStarts p (b :: bs) || listSub p bs

/-- Whether the string `p` occurs inside `s` (Python `p in s`). -/
def strHas (p s : String) : Bool :=
  listSub p.data s.data

/-- A single-quote character, built by code point. -/
def pyQ : String :=
  String.mk [Char.ofNat 39]

/-! ### Decimal rendering of naturals (Python `str(int)` / f-string) -/

/-- The decimal digit character for `d % 10`-sized values. -/
def digitChar10 : Nat → Char
  | 0 => '0' | 1 => '1' | 2 => '2' | 3 => '3' | 4 => '4'
  | 5 => '5' | 6 => '6' | 7 => '7' | 8 => '8' | _ => '9'

/-- Numeric value of a decimal digit character. -/
def digitVal : Char → Nat
  | '0' => 0 | '1' => 1 | '2' => 2 | '3' => 3 | '4' => 4
  | '5' => 5 | '6' => 6 | '7' => 7 | '8' => 8 | _ => 9

/-- Fuel-driven decimal digit expansion (structural, so it reduces in the
kernel). The fuel is always at least `n + 1`. -/
def natDigitsAux : Nat → Nat → List Char
  | 0, _ => []
  | fuel + 1, n =>
    if n < 10 then [digitChar10 n]
    else natDigitsAux fuel (n / 10) ++ [digitChar10 (n % 10)]

/-- Decimal digits of a natural number, most significant first. -/
def natDigits (n : Nat) : List Char :=
  natDigitsAux (n + 1) n

/-- Python decimal rendering of a natural number. -/
def pyNatStr (n : Nat) : String :=
  String.mk (natDigits n)

/-- Reads decimal digits back into a natural number. -/
def digitsToNat (l : List Char) : Nat :=
  l.foldl (fun a c => a * 10 + digitVal c) 0

theorem digitVal_digitChar10 {d : Nat} (h : d < 10) : digitVal (digitChar10 d) = d := by
  interval_cases d <;> rfl

theorem digitsToNat_append_digit (l : List Char) (c : Char) :
    digitsToNat (l ++ [c]) = digitsToNat l * 10 + digitVal c := by
  simp [digitsToNat, List.foldl_append]

theorem digitsToNat_natDigitsAux : ∀ fuel n, n < fuel →
    digitsToNat (natDigitsAux fuel n) = n := by
  intro fuel
  induction fuel with
  | zero => omega
  | succ f ih =>
    intro n hn
    by_cases h : n < 10
    · simp [natDigitsAux, h, digitsToNat, digitVal_digitChar10 h]
    · have hpos : 10 ≤ n := by omega
      have hdiv : n / 10 < n := Nat.div_lt_self (by omega) (by omega)
      have hdivf : n / 10 < f := by omega
      simp only [natDigitsAux, if_neg h]
      rw [digitsToNat_append_digit, ih _ hdivf,
        digitVal_digitChar10 (Nat.mod_lt n (by omega))]
      omega

theorem digitsToNat_natDigits (n : Nat) : digitsToNat (natDigits n) = n :=
  digitsToNat_natDigitsAux (n + 1) n (Nat.lt_succ_self n)

theorem natDigits_injective : Function.Injective natDigits := by
  intro a b h
  have := congrArg digitsToNat h
  rwa [digitsToNat_natDigits, digitsToNat_natDigits] at this

theorem pyNatStr_injective : Function.Injective pyNatStr := by
  intro a b h
  exact natDigits_injective (congrArg String.data h)

/-! ### Python list / string rendering helpers used in messages -/

/-- Concatenate strings with a separator. -/
def joinSep (sep : String) : List String → String
  | [] => ""
  | [x] => x
  | x :: y :: rest => x ++ sep ++ joinSep sep (y :: rest)

/-- Python `repr` of a list of (quoted) strings, as it appears in
f-string interpolation of `sorted(...)` values. -/
def pyStrListRepr (xs : List String) : String :=
  "[" ++ joinSep ", " (xs.map (fun s => pyQ ++ s ++ pyQ)) ++ "]"

/-! ### Python float rendering and numeric conversion

`_parse_numeric` finishes float cells with `str(float(x))`, and
`_run_validations` converts cells with `pd.to_numeric(..., errors="coerce")`.
Both are modelled exactly for the decimal strings this code produces and
consumes: at the point of use the strings contain only digits, dots and
minus signs, and the resulting values are terminating decimals, on which
the shortest round-trip repr of the double equals the minimal positional
decimal form. -/

/-- Removes up to `k` trailing decimal zeros from `n`, returning the
reduced number and the number of decimal places kept. -/
def stripZeros : Nat → Nat → Nat × Nat
  | n, 0 => (n, 0)
  | n, k + 1 => if n % 10 = 0 then stripZeros (n / 10) k else (n, k + 1)

/-- Left-pads a digit list with zeros to length `k`. -/
def padZeros (ds : List Char) (k : Nat) : List Char :=
  List.replicate (k - ds.length) '0' ++ ds

/-- Whether an unsigned character list is accepted by Python `float`:
at most one dot, only digits and dots, at least one digit. (At the call
site the alphabet is already restricted to digits, dots and minus signs,
so this is exactly the acceptance condition of `float`.) -/
def floatBodyOk (body : List Char) : Bool :=
  body.count '.' ≤ 1 && body.all (fun c => c.isDigit || c = '.') &&
    body.any (fun c => c.isDigit)

/-- The value and scale of an accepted decimal body: digits of the
integer and fractional parts, read as one natural number, and the
number of fractional digits. -/
def decBodyParts (body : List Char) : Nat × Nat :=
  let intDs := body.takeWhile (fun c => c ≠ '.')
  let fracDs := (body.dropWhile (fun c => c ≠ '.')).tail
  (digitsToNat (intDs ++ fracDs), fracDs.length)

/-- Python `str(float(x))` for the strings reaching the final step of the
float branch of `_parse_numeric` (digits, dots and minus signs only);
returns `""` exactly when `float(x)` raises, mirroring `_to_float_str`. -/
def pyFloatStr (s : String) : String :=
  let l := s.data
  let neg := l.head? = some '-'
  let body := if neg then l.tail else l
  if floatBodyOk body then
    let parts := decBodyParts body
    let p := stripZeros parts.1 parts.2
    let intN := p.1 / 10 ^ p.2
    let fracN := p.1 % 10 ^ p.2
    let fracStr := if p.2 = 0 then ['0'] else padZeros (natDigits fracN) p.2
    (if neg then "-" else "") ++ pyNatStr intN ++ "." ++ String.mk fracStr
  else ""

/-- `pd.to_numeric(x, errors="coerce")` on a single cell: parses an
optionally signed decimal with an optional exponent, returning `none`
(NaN) on failure. Special spellings such as `inf` and `nan` are outside
the model; no claim depends on them. -/
def pyToNumeric (s : String) : Option ℚ :=
  let l := s.data
  let signBody : Bool × List Char :=
    match l with
    | '-' :: rest => (true, rest)
    | '+' :: rest => (false, rest)
    | _ => (false, l)
  let neg := signBody.1
  let l1 := signBody.2
  let mantL := l1.takeWhile (fun c => !(c = 'e' || c = 'E'))
  let expPart := l1.dropWhile (fun c => !(c = 'e' || c = 'E'))
  if floatBodyOk mantL then
    let parts := decBodyParts mantL
    let base : ℚ := (parts.1 : ℚ) / (10 ^ parts.2 : ℚ)
    match expPart with
    | [] => some (if neg then -base else base)
    | _ :: expRest =>
      let esign : Bool × List Char :=
        match expRest with
        | '-' :: r => (true, r)
        | '+' :: r => (false, r)
        | r => (false, r)
      if esign.2 ≠ [] && esign.2.all (fun c => c.isDigit) then
        let e : ℚ := (10 : ℚ) ^ digitsToNat esign.2
        let v := if esign.1 then base / e else base * e
        some (if neg then -v else v)
      else none
  else none

/-- Smallest `k ≤ 17` with `den ∣ 10 ^ k`, else `17` (fuel-bounded). -/
def denScaleAux : Nat → Nat → Nat → Nat
  | 0, _, k => k
  | fuel + 1, den, k => if den ∣ 10 ^ k then k else denScaleAux fuel den (k + 1)

/-- Decimal scale of a rational denominator. -/
def denScale (den : Nat) : Nat :=
  denScaleAux 18 den 0

/-- Python f-string rendering of a float value (as in
`f"Min ({rr.min}) ..."`); exact for terminating decimals of moderate
size, which are the only values rendered in this development. -/
def qRepr (q : ℚ) : String :=
  let sign := if q < 0 then "-" else ""
  let a := |q|
  let k := denScale a.den
  let n := a.num.natAbs * 10 ^ k / a.den
  let p := stripZeros n k
  let intN := p.1 / 10 ^ p.2
  let fracN := p.1 % 10 ^ p.2
  let fracStr := if p.2 = 0 then ['0'] else padZeros (natDigits fracN) p.2
  sign ++ pyNatStr intN ++ "." ++ String.mk fracStr

/-! ### Schema types (`src/llm/schemas.py`) -/

/-- `ParseNumeric.numeric_type`. -/
inductive NumericType where
  | int
  | float
deriving DecidableEq

/-- `ParseDates.output_format`. -/
inductive DateOutputFormat where
  | iso_date
  | year
deriving DecidableEq

/-- `RangeRule`: float bounds modelled by `ℚ`. -/
structure RangeRule where
  column : String
  min : Option ℚ := none
  max : Option ℚ := none
deriving DecidableEq

/-- `EnumRule`. The schema types `allowed` as `list[str]`, so the
non-string entries the validator defends against cannot be represented;
only the blank-entry half of that check is expressible. -/
structure EnumRule where
  column : String
  allowed : List String
deriving DecidableEq

/-- `RequiredRule`. -/
structure RequiredRule where
  column : String
deriving DecidableEq

/-- `ValidationSpec`. -/
structure ValidationSpec where
  required : List RequiredRule := []
  ranges : List RangeRule := []
  enums : List EnumRule := []
deriving DecidableEq

/-- Default `StandardizeNulls.null_tokens`. -/
def defaultNullTokens : List String :=
  ["", "na", "n/a", "null", "none", "nan"]

/-- The `Action` tagged union. Python dicts become ordered association
lists (dict keys are unique and iteration follows insertion order).
`unknownAction` represents a value whose `action` discriminator is
outside the seven known tags — constructible only by bypassing the
schema, but both the validator and the executor dispatch on it
defensively, so the embedding keeps it representable. -/
inductive Action where
  | drop_columns (columns : List String)
  | rename_columns (mapping : List (String × String))
  | standardize_nulls (null_tokens : List String)
  | parse_numeric (columns : List String) (numeric_type : NumericType)
      (allow_currency : Bool) (allow_thousands_separators : Bool)
      (fix_common_typos : Bool)
  | parse_dates (columns : List String) (day_first : Bool)
      (output_format : DateOutputFormat)
  | trim_whitespace (columns : Option (List String))
  | deduplicate_rows (subset : Option (List String))
  | unknownAction (tag : String)
deriving DecidableEq

/-- The `action` discriminator string of an action value. -/
def Action.tag : Action → String
  | .drop_columns _ => "drop_columns"
  | .rename_columns _ => "rename_columns"
  | .standardize_nulls _ => "standardize_nulls"
  | .parse_numeric _ _ _ _ _ => "parse_numeric"
  | .parse_dates _ _ _ => "parse_dates"
  | .trim_whitespace _ => "trim_whitespace"
  | .deduplicate_rows _ => "deduplicate_rows"
  | .unknownAction t => t

/-- Whether an action carries one of the seven known tags. -/
def Action.known : Action → Bool
  | .unknownAction _ => false
  | _ => true

/-- `CleaningPlan`. -/
structure CleaningPlan where
  version : String := "1"
  summary : String := ""
  actions : List Action := []
  validations : ValidationSpec := {}
deriving DecidableEq

/-! ### Dataset model and plan executor (`src/pipeline/executor.py`)

A pandas dataframe of string cells becomes a `Dataset`: ordered column
names plus rows of cells aligned positionally with the columns. Frames
are rectangular in pandas; the row operations below act positionally and
leave any (unrepresentable) surplus cells alone. Column labels are
unique in the data this code handles; label-based access takes the first
matching position. -/

/-- A dataframe: ordered column names and rows of string cells. -/
structure Dataset where
  cols : List String
  rows : List (List String)
deriving DecidableEq

/-- The cell of row `r` under the first column named `col`. -/
def colCell (col : String) : List String → List String → Option String
  | [], _ => none
  | _ :: _, [] => none
  | c :: cs, v :: vs => if c = col then some v else colCell col cs vs

/-- Label-based cell access with the pandas string default `""`. -/
def colCellD (cols : List String) (col : String) (r : List String) : String :=
  (colCell col cols r).getD ""

/-- The values of column `col`, top to bottom. -/
def getColVals (ds : Dataset) (col : String) : List String :=
  ds.rows.map (colCellD ds.cols col)

/-- Applies `f` to the cells lying under columns named `col`. -/
def mapColCells (col : String) (f : String → String) : List String → List String → List String
  | [], r => r
  | _ :: _, [] => []
  | c :: cs, v :: vs => (if c = col then f v else v) :: mapColCells col f cs vs

/-- `out[col] = out[col].apply(f)`-style columnwise update. -/
def applyCol (ds : Dataset) (col : String) (f : String → String) : Dataset :=
  { cols := ds.cols, rows := ds.rows.map (mapColCells col f ds.cols) }

/-- `_trim_whitespace`: strip the named columns (or all columns when the
filter is absent); absent columns are silently skipped. -/
def trim_whitespace (ds : Dataset) (columns : Option (List String)) : Dataset :=
  (columns.getD ds.cols).foldl
    (fun d col => if d.cols.contains col then applyCol d col pyStrip else d) ds

/-- One cell of `_standardize_nulls`: trim, then blank the cell when its
lowercased form is in the token set (tokens trimmed and lowercased). -/
def stdCell (null_tokens : List String) (v : String) : String :=
  let s := pyStrip v
  if (null_tokens.map (fun t => pyLower (pyStrip t))).contains (pyLower s) then ""
  else s

/-- `_standardize_nulls`: the source loops over every column of the
frame, so every cell is rewritten. -/
def standardize_nulls (ds : Dataset) (null_tokens : List String) : Dataset :=
  { cols := ds.cols, rows := ds.rows.map (fun r => r.map (stdCell null_tokens)) }

/-- `_rename_columns`: keep the entries whose source column exists and
whose target is truthy (non-empty), apply them, and report them. -/
def rename_columns (ds : Dataset) (mapping : List (String × String)) :
    Dataset × List (String × String) :=
  let applied := mapping.filter (fun p => ds.cols.contains p.1 && !(p.2 == ""))
  ({ cols := ds.cols.map (fun c => (applied.lookup c).getD c), rows := ds.rows }, applied)

/-- Drops the cells lying under columns named in `drop`. -/
def dropCells (drop : List String) : List String → List String → List String
  | [], r => r
  | _ :: _, [] => []
  | c :: cs, v :: vs =>
    if drop.contains c then dropCells drop cs vs else v :: dropCells drop cs vs

/-- `_drop_columns`: drop only the columns that exist; report them. -/
def drop_columns (ds : Dataset) (columns : List String) : Dataset × List String :=
  let to_drop := columns.filter (fun c => ds.cols.contains c)
  ({ cols := ds.cols.filter (fun c => !(to_drop.contains c)),
     rows := ds.rows.map (dropCells to_drop ds.cols) }, to_drop)

/-- Regex `\w` (ASCII): letters, digits, underscore. -/
def isWordChar (c : Char) : Bool :=
  c.isAlphanum || c = '_'

/-- Whether an optional preceding character satisfies the lookbehind
`(?<=\d)`. -/
def prevIsDigit : Option Char → Bool
  | some p => p.isDigit
  | none => false

/-- The lookahead `(?=\d{3}\b)`: exactly three digits follow, then a
word boundary (end of string or a non-word character). -/
def sepLookahead : List Char → Bool
  | a :: b :: c :: rest =>
    a.isDigit && b.isDigit && c.isDigit &&
      (match rest with
       | [] => true
       | d :: _ => !(isWordChar d))
  | _ => false

/-- `re.sub(r"(?<=\d)\.(?=\d{3}\b)", "", _)`: delete each dot whose
context in the original string matches; the lookaround context is the
original text, which the recursion tracks through `prev`. -/
def stripSepDots (prev : Option Char) : List Char → List Char
  | [] => []
  | c :: rest =>
    if c == '.' && prevIsDigit prev && sepLookahead rest then
      stripSepDots (some c) rest
    else c :: stripSepDots (some c) rest

/-- `re.sub(r"\.{2,}", ".", _)`: collapse every run of dots to a single
dot (runs of length one are singletons already, so emitting one dot per
run is the same replacement). -/
def collapseDotsGo (prevDot : Bool) : List Char → List Char
  | [] => []
  | c :: rest =>
    if c == '.' then
      (if prevDot then collapseDotsGo true rest else '.' :: collapseDotsGo true rest)
    else c :: collapseDotsGo false rest

/-- Collapse multi-dot runs. -/
def collapseDots (l : List Char) : List Char :=
  collapseDotsGo false l

/-- `re.sub(r"^(\-?\d+)\.$", r"\1.0", _)`: a value that is optional
minus, digits, and a trailing dot gains a trailing zero. -/
def fixTrailingDot (l : List Char) : List Char :=
  let core := match l with | '-' :: rest => rest | _ => l
  if core.getLast? == some '.' && !core.dropLast.isEmpty &&
      core.dropLast.all (fun c => c.isDigit) then
    l ++ ['0']
  else l

/-- The per-cell cleanup pipeline of `_parse_numeric`, in source order:
trim; typo fix (`o`/`O` to `0`); currency strip; comma/whitespace strip
followed by the thousands-dot heuristic; keep only digits, dots and
minus signs; collapse dot runs; blank empty results; then the
type-specific finish (truncate at the first dot for `int`, trailing-dot
repair plus `str(float(x))` for `float`). -/
def parse_numeric_cell (numeric_type : NumericType)
    (allow_currency allow_thousands fix_typos : Bool) (raw : String) : String :=
  let l1 := pyStripL raw.data
  let l2 := if fix_typos then l1.map (fun c => if c == 'o' || c == 'O' then '0' else c) else l1
  let l3 :=
    if allow_currency then
      l2.filter (fun c => !(c == '$' || c == '€' || c == '£' || c == '¥'))
    else l2
  let l4 :=
    if allow_thousands then
      stripSepDots none (l3.filter (fun c => !(c == ',' || pyIsSpace c)))
    else l3
  let l5 := l4.filter (fun c => c.isDigit || c == '.' || c == '-')
  let l6 := collapseDots l5
  let l7 := if l6.length > 0 then l6 else []
  match numeric_type with
  | .int =>
    let t := l7.takeWhile (fun c => !(c == '.'))
    String.mk (if t.length > 0 then t else [])
  | .float => pyFloatStr (String.mk (fixTrailingDot l7))

/-- Per-column statistics recorded by `_parse_numeric`. -/
inductive NumStat where
  | skipped (reason : String)
  | changed (changed_cells : Nat)
deriving DecidableEq

/-- `_parse_numeric` over a frame: per named column, either record a
skip (missing column) or rewrite the cells and count the changed ones
(final value compared against the raw, untrimmed cell, as the source
does). -/
def parse_numeric (ds : Dataset) (columns : List String) (numeric_type : NumericType)
    (allow_currency allow_thousands fix_typos : Bool) :
    Dataset × List (String × NumStat) :=
  columns.foldl
    (fun acc col =>
      if acc.1.cols.contains col then
        let f := parse_numeric_cell numeric_type allow_currency allow_thousands fix_typos
        let changed := (getColVals acc.1 col).countP (fun v => !(f v == v))
        (applyCol acc.1 col f, acc.2 ++ [(col, NumStat.changed changed)])
      else (acc.1, acc.2 ++ [(col, NumStat.skipped "missing column")]))
    (ds, [])

/-- The comparison key of `drop_duplicates`: the whole row when no
subset is given, else the cells under the subset columns. -/
def rowKey (cols : List String) (subset : Option (List String)) (r : List String) :
    List (Option String) :=
  match subset with
  | none => r.map some
  | some cs => cs.map (fun c => colCell c cols r)

/-- Keeps the first occurrence of each key, dropping later duplicates;
`seen` holds the keys already kept. -/
def dedupKeep {α κ : Type} [DecidableEq κ] (key : α → κ) : List α → List κ → List α
  | [], _ => []
  | x :: xs, seen =>
    if key x ∈ seen then dedupKeep key xs seen
    else x :: dedupKeep key xs (key x :: seen)

/-- `df.drop_duplicates(subset=...).reset_index(drop=True)`. -/
def drop_duplicates (ds : Dataset) (subset : Option (List String)) : Dataset :=
  { cols := ds.cols, rows := dedupKeep (rowKey ds.cols subset) ds.rows [] }

/-! ### End-of-run validations (`_run_validations`) -/

/-- One entry of `results["required"]`. -/
structure ReqCheck where
  column : String
  ok : Bool
deriving DecidableEq

/-- One entry of `results["ranges"]`, mirroring the three dict shapes
the source emits. -/
inductive RangeCheck where
  | missing (column : String)
  | empty (column : String)
  | checked (column : String) (ok : Bool) (checkedCount : Nat) (violations : Nat)
      (min max : Option ℚ)
deriving DecidableEq

/-- One entry of `results["enums"]`. -/
inductive EnumCheck where
  | missing (column : String)
  | checked (column : String) (ok : Bool) (bad_values : List String)
      (bad_value_count : Nat) (allowed_count : Nat)
deriving DecidableEq

/-- The `validations` section of the execution report. -/
structure ValidationResults where
  required : List ReqCheck
  ranges : List RangeCheck
  enums : List EnumCheck
deriving DecidableEq

/-- `_run_validations`. -/
def run_validations (ds : Dataset) (plan : CleaningPlan) : ValidationResults :=
  { required := plan.validations.required.map
      (fun rule => ⟨rule.column, ds.cols.contains rule.column⟩),
    ranges := plan.validations.ranges.map (fun rule =>
      if ds.cols.contains rule.column then
        let vals := (getColVals ds rule.column).map pyStrip
        let numeric := vals.filterMap
          (fun v => if v == "" then none else pyToNumeric v)
        if numeric.length == 0 then RangeCheck.empty rule.column
        else
          let vmin := match rule.min with
            | some m => numeric.countP (fun q => decide (q < m))
            | none => 0
          let vmax := match rule.max with
            | some m => numeric.countP (fun q => decide (m < q))
            | none => 0
          RangeCheck.checked rule.column (vmin + vmax == 0) numeric.length
            (vmin + vmax) rule.min rule.max
      else RangeCheck.missing rule.column),
    enums := plan.validations.enums.map (fun rule =>
      if ds.cols.contains rule.column then
        let vals := (getColVals ds rule.column).map pyStrip
        let nonblank := vals.filter (fun v => !(v == ""))
        let bad := sortStrings
          ((nonblank.dedup).filter (fun v => !(rule.allowed.contains v)))
        EnumCheck.checked rule.column (bad.length == 0) (bad.take 50) bad.length
          rule.allowed.dedup.length
      else EnumCheck.missing rule.column) }

/-! ### `execute_plan` -/

/-- One entry of `report["actions_applied"]`. There is no `parse_dates`
record: that branch raises before recording (see `ExecError`). -/
inductive ActionRecord where
  | trim_whitespace (columns : Option (List String)) (columns_seen : List String)
  | standardize_nulls (null_tokens : List String)
  | rename_columns (mapping : List (String × String)) (applied : List (String × String))
  | drop_columns (columns : List String) (dropped : List String)
  | parse_numeric (columns : List String) (stats : List (String × NumStat))
  | deduplicate_rows (subset : Option (List String)) (dropped_rows : Nat)
deriving DecidableEq

/-- The execution report. `warnings` is created and returned but never
appended to by the source, so it is always empty. -/
structure Report where
  plan_version : String
  summary : String
  actions_applied : List ActionRecord
  warnings : List String
  validations : ValidationResults
deriving DecidableEq

/-- How `execute_plan` can raise. `unknown_action` is the
`ExecutionError` of the final `else` branch. `parse_dates_unexpected_kwarg`
embeds a Python `TypeError`: the dispatch (executor.py lines 63-69)
calls `_parse_dates(out, columns=..., day_first=..., output_format=...)`
while `_parse_dates` (line 195) only has parameters
`(df, columns, day_first=False)`, so the call itself raises before any
date parsing runs. -/
inductive ExecError where
  | unknown_action (tag : String)
  | parse_dates_unexpected_kwarg
deriving DecidableEq

/-- The action-dispatch loop of `execute_plan`. -/
def execute_go : Dataset → List Action → List ActionRecord →
    Except ExecError (Dataset × List ActionRecord)
  | d, [], recs => .ok (d, recs)
  | d, a :: as, recs =>
    match a with
    | .trim_whitespace columns =>
      execute_go (trim_whitespace d columns) as
        (recs ++ [.trim_whitespace columns d.cols])
    | .standardize_nulls toks =>
      execute_go (standardize_nulls d toks) as (recs ++ [.standardize_nulls toks])
    | .rename_columns mapping =>
      let r := rename_columns d mapping
      execute_go r.1 as (recs ++ [.rename_columns mapping r.2])
    | .drop_columns columns =>
      let r := drop_columns d columns
      execute_go r.1 as (recs ++ [.drop_columns columns r.2])
    | .parse_numeric columns nt ac ath ft =>
      let r := parse_numeric d columns nt ac ath ft
      execute_go r.1 as (recs ++ [.parse_numeric columns r.2])
    | .parse_dates _ _ _ => .error .parse_dates_unexpected_kwarg
    | .deduplicate_rows subset =>
      let d2 := drop_duplicates d subset
      execute_go d2 as
        (recs ++ [.deduplicate_rows subset (d.rows.length - d2.rows.length)])
    | .unknownAction t => .error (.unknown_action t)

/-- `execute_plan(df, plan)`: apply the actions in order, then run the
end-of-run validations and assemble the report. (`out = df.copy()` is
the identity on the value; the heap model below accounts for the object
identities.) -/
def execute_plan (df : Dataset) (plan : CleaningPlan) :
    Except ExecError (Dataset × Report) :=
  match execute_go df plan.actions [] with
  | .error e => .error e
  | .ok (out, recs) =>
    .ok (out,
      { plan_version := plan.version, summary := plan.summary,
        actions_applied := recs, warnings := [],
        validations := run_validations out plan })

/-! ### Semantic validator (`src/pipeline/validate.py`) -/

/-- One structured error or warning entry: `{path, message}`. -/
structure VEntry where
  path : String
  message : String
deriving DecidableEq

/-- `PlanValidationResult`. -/
structure PlanValidationResult where
  ok : Bool
  errors : List VEntry
  warnings : List VEntry
  final_columns : Option (List String) := none
deriving DecidableEq

/-- `_find_dupes`, as a set: the items occurring at least twice. -/
def findDupes (items : List String) : List String :=
  (items.filter (fun x => 2 ≤ items.count x)).dedup

/-- Path `f"validations.ranges[{i}]"`. -/
def rangePath (i : Nat) : String :=
  "validations.ranges[" ++ (pyNatStr i ++ "]")

/-- Path `f"validations.enums[{i}].allowed"`. -/
def enumPath (i : Nat) : String :=
  "validations.enums[" ++ (pyNatStr i ++ "].allowed")

/-- Path `f"actions[{i}].mapping"`. -/
def actMappingPath (i : Nat) : String :=
  "actions[" ++ (pyNatStr i ++ "].mapping")

/-- Path `f"actions[{i}].columns"`. -/
def actColumnsPath (i : Nat) : String :=
  "actions[" ++ (pyNatStr i ++ "].columns")

/-- Path `f"actions[{i}].subset"`. -/
def actSubsetPath (i : Nat) : String :=
  "actions[" ++ (pyNatStr i ++ "].subset")

/-- Path `f"actions[{i}].action"`. -/
def actActionPath (i : Nat) : String :=
  "actions[" ++ (pyNatStr i ++ "].action")

/-- Message of an inverted range rule. -/
def rangeMsg (mn mx : ℚ) (col : String) : String :=
  "Min (" ++ qRepr mn ++ ") cannot be greater than max (" ++ qRepr mx ++
    ") for column " ++ pyQ ++ col ++ pyQ

/-- Message of an empty enum allowed list. -/
def enumEmptyMsg (col : String) : String :=
  "Allowed list cannot be empty for column " ++ pyQ ++ col ++ pyQ

/-- Message of an allowed list containing blank entries. -/
def enumBlankMsg (col : String) : String :=
  "Allowed list contains empty/non-string values for column " ++ pyQ ++ col ++ pyQ

/-- Message of duplicate required columns. -/
def dupReqMsg (sorted : List String) : String :=
  "Duplicate required columns: " ++ pyStrListRepr sorted

/-- Message of duplicate rename targets. -/
def dupTargetsMsg (sorted : List String) : String :=
  "Rename mapping has duplicate targets: " ++ pyStrListRepr sorted

/-- Message of a blank rename target. -/
def renameBlankMsg (old : String) : String :=
  "Rename target for " ++ pyQ ++ old ++ pyQ ++ " must be a non-empty string"

/-- Message of a missing rename source. -/
def renameMissingMsg (old : String) : String :=
  "Rename source column " ++ pyQ ++ old ++ pyQ ++ " not found in current columns"

/-- Message `f"{kind} references missing column '{c}'"`. -/
def missingColMsg (kind c : String) : String :=
  kind ++ " references missing column " ++ pyQ ++ c ++ pyQ

/-- Message of an unknown action tag. -/
def unknownActionMsg (t : String) : String :=
  "unknown action " ++ pyQ ++ t ++ pyQ

/-- Errors of the range-rule loop of `_validate_validations`
(`enumerate` starting at `i`). -/
def rangeErrsFrom : Nat → List RangeRule → List VEntry
  | _, [] => []
  | i, rr :: rs =>
    (match rr.min, rr.max with
     | some mn, some mx =>
       if mx < mn then [⟨rangePath i, rangeMsg mn mx rr.column⟩] else []
     | _, _ => []) ++ rangeErrsFrom (i + 1) rs

/-- Errors of the enum-rule loop (empty allowed list). -/
def enumErrsFrom : Nat → List EnumRule → List VEntry
  | _, [] => []
  | i, er :: rs =>
    (if er.allowed.isEmpty then [⟨enumPath i, enumEmptyMsg er.column⟩] else []) ++
      enumErrsFrom (i + 1) rs

/-- Warnings of the enum-rule loop (blank entries in the allowed list;
the non-string half of the source check is unrepresentable under the
schema types). -/
def enumWarnsFrom : Nat → List EnumRule → List VEntry
  | _, [] => []
  | i, er :: rs =>
    (if er.allowed.any (fun v => pyStrip v == "") then
      [⟨enumPath i, enumBlankMsg er.column⟩] else []) ++
      enumWarnsFrom (i + 1) rs

/-- Python `set.add` on the working column set. -/
def setAdd (s : List String) (x : String) : List String :=
  if s.contains x then s else x :: s

/-- The state threaded through the column-set simulation: the working
column set and the shared error and warning lists. -/
structure SimState where
  cols : List String
  errors : List VEntry
  warnings : List VEntry
deriving DecidableEq

/-- One entry of the rename mapping inside the simulation: blank target
is an error, absent source a warning, otherwise the set is updated. -/
def renameEntryStep (idx : Nat) (st : SimState) (p : String × String) : SimState :=
  if pyStrip p.2 == "" then
    { st with errors := st.errors ++ [⟨actMappingPath idx, renameBlankMsg p.1⟩] }
  else if !(st.cols.contains p.1) then
    { st with warnings := st.warnings ++ [⟨actMappingPath idx, renameMissingMsg p.1⟩] }
  else
    { st with cols := setAdd (st.cols.erase p.1) p.2 }

/-- One action of `_validate_actions_against_columns`. -/
def simStep (idx : Nat) (a : Action) (st : SimState) : SimState :=
  match a with
  | .rename_columns mapping =>
    if mapping.isEmpty then
      { st with warnings := st.warnings ++
          [⟨actMappingPath idx, "rename_columns mapping is empty"⟩] }
    else
      let new_names := (mapping.map Prod.snd).filter (fun v => !(pyStrip v == ""))
      let dup_new := findDupes new_names
      let st1 :=
        if dup_new.isEmpty then st
        else { st with warnings := st.warnings ++
            [⟨actMappingPath idx, dupTargetsMsg (sortStrings dup_new)⟩] }
      mapping.foldl (renameEntryStep idx) st1
  | .drop_columns columns =>
    let st1 :=
      if columns.isEmpty then
        { st with warnings := st.warnings ++
            [⟨actColumnsPath idx, "drop_columns has empty columns list"⟩] }
      else st
    columns.foldl
      (fun s c =>
        if !(s.cols.contains c) then
          { s with warnings := s.warnings ++
              [⟨actColumnsPath idx, missingColMsg "drop_columns" c⟩] }
        else { s with cols := s.cols.erase c }) st1
  | .trim_whitespace columns =>
    match columns with
    | none => st
    | some cs =>
      let st1 :=
        if cs.isEmpty then
          { st with warnings := st.warnings ++
              [⟨actColumnsPath idx, "trim_whitespace has empty columns list"⟩] }
        else st
      cs.foldl
        (fun s c =>
          if s.cols.contains c then s
          else { s with warnings := s.warnings ++
              [⟨actColumnsPath idx, missingColMsg "trim_whitespace" c⟩] }) st1
  | .standardize_nulls _ => st
  | .parse_numeric columns _ _ _ _ =>
    let st1 :=
      if columns.isEmpty then
        { st with warnings := st.warnings ++
            [⟨actColumnsPath idx, "parse_numeric has empty columns list"⟩] }
      else st
    columns.foldl
      (fun s c =>
        if s.cols.contains c then s
        else { s with warnings := s.warnings ++
            [⟨actColumnsPath idx, missingColMsg "parse_numeric" c⟩] }) st1
  | .parse_dates columns _ _ =>
    let st1 :=
      if columns.isEmpty then
        { st with warnings := st.warnings ++
            [⟨actColumnsPath idx, "parse_dates has empty columns list"⟩] }
      else st
    columns.foldl
      (fun s c =>
        if s.cols.contains c then s
        else { s with warnings := s.warnings ++
            [⟨actColumnsPath idx, missingColMsg "parse_dates" c⟩] }) st1
  | .deduplicate_rows subset =>
    match subset with
    | none => st
    | some cs =>
      let st1 :=
        if cs.isEmpty then
          { st with warnings := st.warnings ++
              [⟨actSubsetPath idx, "deduplicate_rows has empty subset list"⟩] }
        else st
      cs.foldl
        (fun s c =>
          if s.cols.contains c then s
          else { s with warnings := s.warnings ++
              [⟨actSubsetPath idx,
                "deduplicate_rows subset references missing column " ++ pyQ ++ c ++ pyQ⟩] }) st1
  | .unknownAction t =>
    { st with errors := st.errors ++ [⟨actActionPath idx, unknownActionMsg t⟩] }

/-- The action walk of the simulation (`enumerate` starting at `i`). -/
def runSimFrom : Nat → List Action → SimState → SimState
  | _, [], st => st
  | i, a :: as, st => runSimFrom (i + 1) as (simStep i a st)

/-- Message of a required rule whose column is gone after the actions. -/
def postReqMsg (c : String) : String :=
  "required column " ++ pyQ ++ c ++ pyQ ++
    " not present after actions (may fail at runtime validation)"

/-- Message of a range rule whose column is gone after the actions. -/
def postRangeMsg (c : String) : String :=
  "range rule column " ++ pyQ ++ c ++ pyQ ++
    " not present after actions (will be skipped/fail at runtime)"

/-- Message of an enum rule whose column is gone after the actions. -/
def postEnumMsg (c : String) : String :=
  "Enum rule column " ++ pyQ ++ c ++ pyQ ++
    " not present after actions (will be skipped/fail at runtime)"

/-- The warnings re-checking each validation rule against the final
simulated column set. -/
def postRuleWarns (plan : CleaningPlan) (cols : List String) : List VEntry :=
  plan.validations.required.filterMap
    (fun r => if cols.contains r.column then none
      else some ⟨"validations.required", postReqMsg r.column⟩) ++
  plan.validations.ranges.filterMap
    (fun r => if cols.contains r.column then none
      else some ⟨"validations.ranges", postRangeMsg r.column⟩) ++
  plan.validations.enums.filterMap
    (fun r => if cols.contains r.column then none
      else some ⟨"validations.enums", postEnumMsg r.column⟩)

/-- `validate_plan(plan, df_columns=...)`. The `summary` isinstance
error branch is unreachable under the schema types (summary is a
string) and the version isinstance check reduces to blankness. -/
def validate_plan (plan : CleaningPlan) (df_columns : Option (List String)) :
    PlanValidationResult :=
  let errs0 :=
    if pyStrip plan.version == "" then
      [(⟨"version", "Version must be a non-empty string"⟩ : VEntry)]
    else []
  let dups := findDupes (plan.validations.required.map (fun r => r.column))
  let dupWarns :=
    if dups.isEmpty then []
    else [(⟨"validations.required", dupReqMsg (sortStrings dups)⟩ : VEntry)]
  let errs1 := errs0 ++ rangeErrsFrom 0 plan.validations.ranges ++
    enumErrsFrom 0 plan.validations.enums
  let warns1 := dupWarns ++ enumWarnsFrom 0 plan.validations.enums
  match df_columns with
  | none => ⟨errs1.isEmpty, errs1, warns1, none⟩
  | some dcols =>
    let st := runSimFrom 0 plan.actions ⟨dcols.dedup, errs1, warns1⟩
    ⟨st.errors.isEmpty, st.errors, st.warnings ++ postRuleWarns plan st.cols,
      some (sortStrings st.cols)⟩

/-! ### Heap model of dataframe objects

Claim C9 is about object mutation, which the pure embedding cannot
express. The heap model makes frame identities explicit: a `Heap` is a
store of dataframes, `halloc` is `df.copy()` (and pandas operations
returning fresh frames), and `hset` summarizes a helper's in-place
column writes, all of which target the helper's own fresh copy in the
source. `execute_planH` mirrors `execute_plan` at this level; proving
that pre-existing frames are untouched is the content of the purity
claim. -/

/-- A store of dataframe objects, addressed by allocation index. -/
abbrev Heap := List Dataset

/-- The default frame for out-of-range reads (never exercised under the
theorems' hypotheses). -/
def emptyDataset : Dataset :=
  ⟨[], []⟩

/-- Reads the frame at reference `r`. -/
def hget (h : Heap) (r : Nat) : Dataset :=
  h.getD r emptyDataset

/-- Allocates a new frame, returning the extended heap and its
reference. -/
def halloc (h : Heap) (ds : Dataset) : Heap × Nat :=
  (h ++ [ds], h.length)

/-- Overwrites the frame at reference `r` (in-place mutation). -/
def hset (h : Heap) (r : Nat) (ds : Dataset) : Heap :=
  h.set r ds

/-- A helper call: copy the argument frame, then mutate only the copy
(the source helpers all begin with `out = df.copy()` and write columns
of `out` only). -/
def happly (h : Heap) (r : Nat) (f : Dataset → Dataset) : Heap × Nat :=
  let a := halloc h (hget h r)
  (hset a.1 a.2 (f (hget a.1 a.2)), a.2)

/-- The dispatch loop of `execute_plan` over the heap. -/
def execute_goH : Heap → Nat → List Action → List ActionRecord →
    Heap × Except ExecError (Nat × List ActionRecord)
  | h, out, [], recs => (h, .ok (out, recs))
  | h, out, a :: as, recs =>
    match a with
    | .trim_whitespace columns =>
      let p := happly h out (fun d => trim_whitespace d columns)
      execute_goH p.1 p.2 as (recs ++ [.trim_whitespace columns (hget h out).cols])
    | .standardize_nulls toks =>
      let p := happly h out (fun d => standardize_nulls d toks)
      execute_goH p.1 p.2 as (recs ++ [.standardize_nulls toks])
    | .rename_columns mapping =>
      let p := happly h out (fun d => (rename_columns d mapping).1)
      execute_goH p.1 p.2 as
        (recs ++ [.rename_columns mapping (rename_columns (hget h out) mapping).2])
    | .drop_columns columns =>
      let p := happly h out (fun d => (drop_columns d columns).1)
      execute_goH p.1 p.2 as
        (recs ++ [.drop_columns columns (drop_columns (hget h out) columns).2])
    | .parse_numeric columns nt ac ath ft =>
      let p := happly h out (fun d => (parse_numeric d columns nt ac ath ft).1)
      execute_goH p.1 p.2 as
        (recs ++ [.parse_numeric columns (parse_numeric (hget h out) columns nt ac ath ft).2])
    | .parse_dates _ _ _ => (h, .error .parse_dates_unexpected_kwarg)
    | .deduplicate_rows subset =>
      let p := happly h out (fun d => drop_duplicates d subset)
      execute_goH p.1 p.2 as
        (recs ++ [.deduplicate_rows subset
          ((hget h out).rows.length - (drop_duplicates (hget h out) subset).rows.length)])
    | .unknownAction t => (h, .error (.unknown_action t))

/-- `execute_plan` over the heap: copy the input frame, run the
dispatch loop, assemble the report from the final frame. -/
def execute_planH (h : Heap) (r : Nat) (plan : CleaningPlan) :
    Heap × Except ExecError (Nat × Report) :=
  let a := halloc h (hget h r)
  match execute_goH a.1 a.2 plan.actions [] with
  | (h2, .error e) => (h2, .error e)
  | (h2, .ok (ref, recs)) =>
    (h2, .ok (ref,
      { plan_version := plan.version, summary := plan.summary,
        actions_applied := recs, warnings := [],
        validations := run_validations (hget h2 ref) plan }))

/-! ### Spec-side replay of the column-set simulation (for claim C4)

The following two definitions follow the words of the SPEC, not the
source: "the sorted set obtained by replaying the plan's rename_columns
and drop_columns actions in order against the initial column set
(renames applied only when the source is present and the target
non-blank, drops only when the column is present)". They are compared
with the validator's simulation. -/

/-- Spec replay of a single action on the column set. -/
def specReplayStep (cols : List String) (a : Action) : List String :=
  match a with
  | .rename_columns mapping =>
    mapping.foldl
      (fun cs p =>
        if cs.contains p.1 && !(pyStrip p.2 == "") then setAdd (cs.erase p.1) p.2
        else cs) cols
  | .drop_columns columns => columns.foldl (fun cs c => cs.erase c) cols
  | _ => cols

/-- Spec replay of the whole plan: sorted set after renames and drops. -/
def specFinalColumns (initial : List String) (actions : List Action) : List String :=
  sortStrings (actions.foldl specReplayStep initial.dedup)

/-! ### Heap lemmas -/

theorem hget_append_lt : ∀ (h : Heap) (d : Dataset) (i : Nat), i < h.length →
    hget (h ++ [d]) i = hget h i := by
  intro h d
  induction h with
  | nil => intro i hi; simp at hi
  | cons x t ih =>
    intro i hi
    cases i with
    | zero => rfl
    | succ j => exact ih j (by simpa using hi)

theorem hget_append_self (h : Heap) (d : Dataset) : hget (h ++ [d]) h.length = d := by
  induction h with
  | nil => rfl
  | cons x t ih => exact ih

theorem hget_hset_self : ∀ (h : Heap) (r : Nat) (v : Dataset), r < h.length →
    hget (hset h r v) r = v := by
  intro h
  induction h with
  | nil => intro r v hr; simp at hr
  | cons x t ih =>
    intro r v hr
    cases r with
    | zero => rfl
    | succ j => exact ih j v (by simpa using hr)

theorem hget_hset_ne : ∀ (h : Heap) (r : Nat) (v : Dataset) (i : Nat), i ≠ r →
    hget (hset h r v) i = hget h i := by
  intro h
  induction h with
  | nil => intro r v i _; rfl
  | cons x t ih =>
    intro r v i hne
    cases r with
    | zero =>
      cases i with
      | zero => exact absurd rfl hne
      | succ j => rfl
    | succ s =>
      cases i with
      | zero => rfl
      | succ j => exact ih s v j (by omega)

theorem happly_ref (h : Heap) (r : Nat) (f : Dataset → Dataset) :
    (happly h r f).2 = h.length := rfl

theorem happly_length (h : Heap) (r : Nat) (f : Dataset → Dataset) :
    (happly h r f).1.length = h.length + 1 := by
  simp [happly, halloc, hset]

theorem happly_frames (h : Heap) (r : Nat) (f : Dataset → Dataset) (i : Nat)
    (hi : i < h.length) : hget (happly h r f).1 i = hget h i := by
  show hget (hset (h ++ [hget h r]) h.length _) i = hget h i
  rw [hget_hset_ne _ _ _ _ (by omega), hget_append_lt h _ i hi]

theorem happly_out (h : Heap) (r : Nat) (f : Dataset → Dataset) :
    hget (happly h r f).1 (happly h r f).2 = f (hget h r) := by
  show hget (hset (h ++ [hget h r]) h.length
    (f (hget (h ++ [hget h r]) h.length))) h.length = f (hget h r)
  rw [hget_append_self, hget_hset_self _ _ _ (by simp)]

/-- The inductive contract of the heap dispatch loop: the heap only
grows, pre-existing frames are untouched, and the outcome mirrors the
pure loop, the final frame holding the pure result. -/
def GoHSpec (as : List Action) (h : Heap) (out : Nat) (recs : List ActionRecord) : Prop :=
  h.length ≤ (execute_goH h out as recs).1.length ∧
  (∀ i, i < h.length → hget (execute_goH h out as recs).1 i = hget h i) ∧
  (match execute_go (hget h out) as recs with
   | .ok dr => ∃ ref,
       ref < (execute_goH h out as recs).1.length ∧
       (execute_goH h out as recs).2 = .ok (ref, dr.2) ∧
       hget (execute_goH h out as recs).1 ref = dr.1 ∧
       (ref = out ∨ h.length ≤ ref)
   | .error e => (execute_goH h out as recs).2 = .error e)

theorem goH_happly_case (as : List Action) (h : Heap) (out : Nat)
    (recs2 : List ActionRecord) (f : Dataset → Dataset)
    (ih : ∀ (h2 : Heap) (o2 : Nat) (r2 : List ActionRecord), o2 < h2.length →
      GoHSpec as h2 o2 r2) :
    h.length ≤ (execute_goH (happly h out f).1 (happly h out f).2 as recs2).1.length ∧
    (∀ i, i < h.length →
      hget (execute_goH (happly h out f).1 (happly h out f).2 as recs2).1 i = hget h i) ∧
    (match execute_go (f (hget h out)) as recs2 with
     | .ok dr => ∃ ref,
         ref < (execute_goH (happly h out f).1 (happly h out f).2 as recs2).1.length ∧
         (execute_goH (happly h out f).1 (happly h out f).2 as recs2).2 = .ok (ref, dr.2) ∧
         hget (execute_goH (happly h out f).1 (happly h out f).2 as recs2).1 ref = dr.1 ∧
         (ref = out ∨ h.length ≤ ref)
     | .error e =>
         (execute_goH (happly h out f).1 (happly h out f).2 as recs2).2 = .error e) := by
  have hp2 : (happly h out f).2 = h.length := rfl
  have hlen : (happly h out f).1.length = h.length + 1 := happly_length h out f
  have hlt : (happly h out f).2 < (happly h out f).1.length := by omega
  obtain ⟨ihlen, ihframes, ihres⟩ := ih _ _ recs2 hlt
  rw [happly_out] at ihres
  refine ⟨by omega, ?_, ?_⟩
  · intro i hi
    rw [ihframes i (by omega), happly_frames h out f i hi]
  · cases hE : execute_go (f (hget h out)) as recs2 with
    | ok dr =>
      rw [hE] at ihres
      obtain ⟨ref, h1, h2, h3, h4⟩ := ihres
      refine ⟨ref, h1, h2, h3, Or.inr ?_⟩
      cases h4 with
      | inl hl => omega
      | inr hr => omega
    | error e =>
      rw [hE] at ihres
      exact ihres

theorem execute_goH_spec : ∀ (as : List Action) (h : Heap) (out : Nat)
    (recs : List ActionRecord), out < h.length → GoHSpec as h out recs := by
  intro as
  induction as with
  | nil =>
    intro h out recs hout
    unfold GoHSpec
    simp only [execute_goH, execute_go]
    exact ⟨le_refl _, by simp, ⟨out, hout, by simp, by simp, by simp⟩⟩
  | cons a as ih =>
    intro h out recs hout
    unfold GoHSpec
    cases a with
    | trim_whitespace columns =>
      simpa only [execute_goH, execute_go] using
        goH_happly_case as h out
          (recs ++ [.trim_whitespace columns (hget h out).cols])
          (fun d => trim_whitespace d columns) ih
    | standardize_nulls toks =>
      simpa only [execute_goH, execute_go] using
        goH_happly_case as h out (recs ++ [.standardize_nulls toks])
          (fun d => standardize_nulls d toks) ih
    | rename_columns mapping =>
      simpa only [execute_goH, execute_go] using
        goH_happly_case as h out
          (recs ++ [.rename_columns mapping (rename_columns (hget h out) mapping).2])
          (fun d => (rename_columns d mapping).1) ih
    | drop_columns columns =>
      simpa only [execute_goH, execute_go] using
        goH_happly_case as h out
          (recs ++ [.drop_columns columns (drop_columns (hget h out) columns).2])
          (fun d => (drop_columns d columns).1) ih
    | parse_numeric columns nt ac ath ft =>
      simpa only [execute_goH, execute_go] using
        goH_happly_case as h out
          (recs ++ [.parse_numeric columns (parse_numeric (hget h out) columns nt ac ath ft).2])
          (fun d => (parse_numeric d columns nt ac ath ft).1) ih
    | deduplicate_rows subset =>
      simpa only [execute_goH, execute_go] using
        goH_happly_case as h out
          (recs ++ [.deduplicate_rows subset
            ((hget h out).rows.length - (drop_duplicates (hget h out) subset).rows.length)])
          (fun d => drop_duplicates d subset) ih
    | parse_dates columns df of =>
      simp only [execute_goH, execute_go]
      exact ⟨le_refl _, by simp, by simp⟩
    | unknownAction t =>
      simp only [execute_goH, execute_go]
      exact ⟨le_refl _, by simp, by simp⟩

/-! ### Deduplication lemmas (claim C5) -/

theorem dedupKeep_sublist {α κ : Type} [DecidableEq κ] (key : α → κ) :
    ∀ (xs : List α) (seen : List κ), (dedupKeep key xs seen).Sublist xs := by
  intro xs
  induction xs with
  | nil => intro seen; simp [dedupKeep]
  | cons x xs ih =>
    intro seen
    simp only [dedupKeep]
    split
    · exact (ih seen).cons x
    · exact (ih (key x :: seen)).cons₂ x

theorem dedupKeep_not_seen {α κ : Type} [DecidableEq κ] (key : α → κ) :
    ∀ (xs : List α) (seen : List κ) (k : κ),
      k ∈ (dedupKeep key xs seen).map key → k ∉ seen := by
  intro xs
  induction xs with
  | nil => intro seen k hk; simp [dedupKeep] at hk
  | cons x xs ih =>
    intro seen k hk
    by_cases hx : key x ∈ seen
    · exact ih seen k (by simpa [dedupKeep, hx] using hk)
    · simp only [dedupKeep, if_neg hx, List.map_cons, List.mem_cons] at hk
      cases hk with
      | inl he => subst he; exact hx
      | inr ht =>
        intro hks
        exact ih (key x :: seen) k ht (List.mem_cons_of_mem _ hks)

theorem dedupKeep_nodup_keys {α κ : Type} [DecidableEq κ] (key : α → κ) :
    ∀ (xs : List α) (seen : List κ), ((dedupKeep key xs seen).map key).Nodup := by
  intro xs
  induction xs with
  | nil => intro seen; simp [dedupKeep]
  | cons x xs ih =>
    intro seen
    by_cases hx : key x ∈ seen
    · simpa [dedupKeep, hx] using ih seen
    · simp only [dedupKeep, if_neg hx, List.map_cons, List.nodup_cons]
      refine ⟨fun hmem => ?_, ih (key x :: seen)⟩
      exact dedupKeep_not_seen key xs (key x :: seen) (key x) hmem (List.mem_cons_self _ _)

theorem dedupKeep_covers {α κ : Type} [DecidableEq κ] (key : α → κ) :
    ∀ (xs : List α) (seen : List κ) (x : α), x ∈ xs →
      key x ∈ seen ∨ key x ∈ (dedupKeep key xs seen).map key := by
  intro xs
  induction xs with
  | nil => intro seen x hx; simp at hx
  | cons y xs ih =>
    intro seen x hx
    by_cases hy : key y ∈ seen
    · simp only [dedupKeep, if_pos hy]
      cases List.mem_cons.mp hx with
      | inl he => subst he; exact Or.inl hy
      | inr ht => exact ih seen x ht
    · simp only [dedupKeep, if_neg hy, List.map_cons, List.mem_cons]
      cases List.mem_cons.mp hx with
      | inl he => subst he; exact Or.inr (Or.inl rfl)
      | inr ht =>
        cases ih (key y :: seen) x ht with
        | inl hs =>
          cases List.mem_cons.mp hs with
          | inl he => exact Or.inr (Or.inl he)
          | inr hs2 => exact Or.inl hs2
        | inr hm => exact Or.inr (Or.inr hm)

theorem dedupKeep_idem {α κ : Type} [DecidableEq κ] (key : α → κ) :
    ∀ (xs : List α) (seen : List κ),
      dedupKeep key (dedupKeep key xs seen) seen = dedupKeep key xs seen := by
  intro xs
  induction xs with
  | nil => intro seen; rfl
  | cons x xs ih =>
    intro seen
    by_cases hx : key x ∈ seen
    · simp only [dedupKeep, if_pos hx]
      exact ih seen
    · simp only [dedupKeep, if_neg hx]
      rw [ih (key x :: seen)]

/-- **C5**: `deduplicate_rows` is idempotent for every dataset and every
subset filter that references existing columns (or the full-row
sentinel): a second application changes nothing; moreover the kept rows
form a sublist of the input (relative order preserved), their keys are
pairwise distinct, and every input row is represented by a kept row of
equal key (the first occurrence is what is kept). -/
theorem deduplicate_rows_idempotent (ds : Dataset) (subset : Option (List String))
    (_hsub : ∀ cs, subset = some cs → ∀ c ∈ cs, c ∈ ds.cols) :
    drop_duplicates (drop_duplicates ds subset) subset = drop_duplicates ds subset ∧
    (drop_duplicates ds subset).rows.Sublist ds.rows ∧
    ((drop_duplicates ds subset).rows.map (rowKey ds.cols subset)).Nodup ∧
    (∀ r ∈ ds.rows, rowKey ds.cols subset r ∈
      (drop_duplicates ds subset).rows.map (rowKey ds.cols subset)) := by
  refine ⟨?_, dedupKeep_sublist _ _ _, dedupKeep_nodup_keys _ _ _, ?_⟩
  · simp [drop_duplicates, dedupKeep_idem]
  · intro r hr
    have h := dedupKeep_covers (rowKey ds.cols subset) ds.rows [] r hr
    simpa [drop_duplicates] using h

/-- Witness for C5 at the example dataset of the spec:
`[{"a":"1"},{"a":"1"},{"a":"2"}]` deduplicated on the full row. -/
theorem deduplicate_rows_idempotent_witness :
    (∀ cs, (none : Option (List String)) = some cs →
      ∀ c ∈ cs, c ∈ (⟨["a"], [["1"], ["1"], ["2"]]⟩ : Dataset).cols) ∧
    (drop_duplicates (drop_duplicates ⟨["a"], [["1"], ["1"], ["2"]]⟩ none) none =
        drop_duplicates ⟨["a"], [["1"], ["1"], ["2"]]⟩ none ∧
      (drop_duplicates (⟨["a"], [["1"], ["1"], ["2"]]⟩ : Dataset) none).rows.Sublist
        [["1"], ["1"], ["2"]] ∧
      ((drop_duplicates (⟨["a"], [["1"], ["1"], ["2"]]⟩ : Dataset) none).rows.map
        (rowKey ["a"] none)).Nodup ∧
      (∀ r ∈ [["1"], ["1"], ["2"]], rowKey ["a"] none r ∈
        (drop_duplicates (⟨["a"], [["1"], ["1"], ["2"]]⟩ : Dataset) none).rows.map
          (rowKey ["a"] none))) := by
  constructor
  · intro cs h
    simp at h
  · exact deduplicate_rows_idempotent ⟨["a"], [["1"], ["1"], ["2"]]⟩ none
      (fun _ h => by simp at h)

/-- **C7**: with `numeric_type=int`, no output cell of the numeric
cleanup pipeline contains a dot: the int finish truncates at the first
dot, and re-blanking cannot introduce one. -/
theorem parse_numeric_int_no_dot (ac ath ft : Bool) (raw : String) :
    '.' ∉ (parse_numeric_cell NumericType.int ac ath ft raw).data := by
  intro hmem
  simp only [parse_numeric_cell] at hmem
  set l7 := (if (collapseDots _).length > 0 then collapseDots _ else []) with hl7
  revert hmem
  split
  · intro hmem
    have := List.mem_takeWhile_imp hmem
    simp at this
  · intro hmem
    simp at hmem

/-- **C6**: the two numeric-parse examples of the spec, through the
pipeline in source step order: `"2.278.845"` with thousands handling
on, currency off, float type gives `"2278845.0"`; `"$1,234.50"` with
currency and thousands handling on gives `"1234.5"`. -/
theorem parse_numeric_examples :
    parse_numeric_cell NumericType.float false true true "2.278.845" = "2278845.0" ∧
    parse_numeric_cell NumericType.float true true true "$1,234.50" = "1234.5" :=
  ⟨by decide, by decide⟩

/-- **C1** (the code bug): a plan all of whose actions carry known tags
— a single `parse_dates` action — still makes `execute_plan` raise: the
dispatch passes `output_format=` to `_parse_dates`, which has no such
parameter, so the call raises a `TypeError` instead of returning a
transformed dataset and report. -/
theorem execute_plan_parse_dates_raises :
    (({ actions := [.parse_dates ["d"] false .iso_date] } : CleaningPlan).actions.all
      Action.known = true) ∧
    execute_plan ⟨["d"], [["2020-01-01"]]⟩
        { actions := [.parse_dates ["d"] false .iso_date] } =
      .error .parse_dates_unexpected_kwarg :=
  ⟨rfl, rfl⟩

/-! ### Claim C10: standardize_nulls rewrites every cell -/

/-- **C10**: `_standardize_nulls` trims every cell of every column, not
only the null-token matches: each cell becomes its trimmed value, or
the empty string when the trimmed, lowercased value is among the
trimmed, lowercased tokens. -/
theorem standardize_nulls_trims_every_cell (ds : Dataset) (tokens : List String)
    (i j : Nat) (c : String)
    (hc : (ds.rows.get? i).bind (fun r => r.get? j) = some c) :
    ((standardize_nulls ds tokens).rows.get? i).bind (fun r => r.get? j) =
      some (if (tokens.map (fun t => pyLower (pyStrip t))).contains (pyLower (pyStrip c))
        then "" else pyStrip c) := by
  cases hrow : ds.rows.get? i with
  | none => rw [hrow] at hc; simp at hc
  | some r =>
    rw [hrow] at hc
    simp only [Option.some_bind] at hc
    have hmap : (standardize_nulls ds tokens).rows.get? i = some (r.map (stdCell tokens)) := by
      show (ds.rows.map (fun row => row.map (stdCell tokens))).get? i = _
      rw [List.get?_map, hrow]
      rfl
    rw [hmap]
    simp only [Option.some_bind]
    rw [List.get?_map, hc]
    rfl

/-- Witness for C10: a non-matching padded cell comes out trimmed and a
padded `NA` cell comes out blank. -/
theorem standardize_nulls_trims_every_cell_witness :
    (((⟨["a", "b"], [[" x ", " NA "]]⟩ : Dataset).rows.get? 0).bind
        (fun r => r.get? 0) = some " x " ∧
      ((standardize_nulls ⟨["a", "b"], [[" x ", " NA "]]⟩ defaultNullTokens).rows.get? 0).bind
        (fun r => r.get? 0) = some "x") ∧
    (((⟨["a", "b"], [[" x ", " NA "]]⟩ : Dataset).rows.get? 0).bind
        (fun r => r.get? 1) = some " NA " ∧
      ((standardize_nulls ⟨["a", "b"], [[" x ", " NA "]]⟩ defaultNullTokens).rows.get? 0).bind
        (fun r => r.get? 1) = some "") := by
  constructor
  · refine ⟨by decide, ?_⟩
    rw [standardize_nulls_trims_every_cell ⟨["a", "b"], [[" x ", " NA "]]⟩
      defaultNullTokens 0 0 " x " (by decide)]
    decide
  · refine ⟨by decide, ?_⟩
    rw [standardize_nulls_trims_every_cell ⟨["a", "b"], [[" x ", " NA "]]⟩
      defaultNullTokens 0 1 " NA " (by decide)]
    decide

/-! ### Claim C9: purity of execute (heap model) and validate -/

/-- **C9**: in the heap model, `execute_plan` never touches any
pre-existing frame — in particular the input dataframe is unchanged —
and its outcome agrees with the pure function, the returned dataset
living in a freshly allocated frame distinct from the input reference.
The validator needs no heap embedding at all: `validate_plan` consumes
the (immutable) plan and a list of column names and builds its result
from fresh lists, so the executor is the only component with mutation
to account for. -/
theorem execute_plan_pure_frames (h : Heap) (r : Nat) (plan : CleaningPlan)
    (hr : r < h.length) :
    (∀ i, i < h.length → hget (execute_planH h r plan).1 i = hget h i) ∧
    (match execute_plan (hget h r) plan with
     | .ok dr => ∃ ref, (execute_planH h r plan).2 = .ok (ref, dr.2) ∧
         hget (execute_planH h r plan).1 ref = dr.1 ∧ ref ≠ r
     | .error e => (execute_planH h r plan).2 = .error e) := by
  have hout : (halloc h (hget h r)).2 < (halloc h (hget h r)).1.length := by
    simp [halloc]
  obtain ⟨glen, gframes, gres⟩ := execute_goH_spec plan.actions _ _ [] hout
  have hgeta : hget (halloc h (hget h r)).1 (halloc h (hget h r)).2 = hget h r :=
    hget_append_self h _
  rw [hgeta] at gres
  have hlen1 : (halloc h (hget h r)).1.length = h.length + 1 := by simp [halloc]
  cases hE : execute_goH (halloc h (hget h r)).1 (halloc h (hget h r)).2 plan.actions []
    with
  | mk h2 res =>
    rw [hE] at glen gframes gres
    simp only at glen gframes gres
    constructor
    · intro i hi
      have hf : hget h2 i = hget h i := by
        rw [gframes i (by omega)]
        show hget (h ++ [hget h r]) i = hget h i
        exact hget_append_lt h _ i hi
      simp only [execute_planH, hE]
      cases res with
      | error e => simpa using hf
      | ok v => simpa using hf
    · cases hP : execute_go (hget h r) plan.actions [] with
      | error e =>
        rw [hP] at gres
        subst gres
        simp only [execute_plan, hP, execute_planH, hE]
      | ok dr =>
        obtain ⟨ds, recs⟩ := dr
        rw [hP] at gres
        obtain ⟨ref, _, hres, hframe, hor⟩ := gres
        subst hres
        simp only [execute_plan, hP, execute_planH, hE]
        refine ⟨ref, ?_, ?_, ?_⟩
        · simp [hframe]
        · simpa using hframe
        · have hge : h.length ≤ ref := by
            cases hor with
            | inl hl => simp [halloc] at hl; omega
            | inr hh => rw [hlen1] at hh; omega
          omega

/-- Witness for C9 on a one-frame heap and a small plan. -/
theorem execute_plan_pure_frames_witness :
    0 < ([(⟨["a"], [[" x "]]⟩ : Dataset)] : Heap).length ∧
    ((∀ i, i < ([(⟨["a"], [[" x "]]⟩ : Dataset)] : Heap).length →
        hget (execute_planH [⟨["a"], [[" x "]]⟩] 0
          { actions := [.trim_whitespace none] }).1 i =
          hget [⟨["a"], [[" x "]]⟩] i) ∧
      (match execute_plan (hget [⟨["a"], [[" x "]]⟩] 0)
          { actions := [.trim_whitespace none] } with
       | .ok dr => ∃ ref,
           (execute_planH [⟨["a"], [[" x "]]⟩] 0
             { actions := [.trim_whitespace none] }).2 = .ok (ref, dr.2) ∧
           hget (execute_planH [⟨["a"], [[" x "]]⟩] 0
             { actions := [.trim_whitespace none] }).1 ref = dr.1 ∧ ref ≠ 0
       | .error e =>
           (execute_planH [⟨["a"], [[" x "]]⟩] 0
             { actions := [.trim_whitespace none] }).2 = .error e)) :=
  ⟨by decide,
    execute_plan_pure_frames [⟨["a"], [[" x "]]⟩] 0
      { actions := [.trim_whitespace none] } (by decide)⟩

/-! ### Claim C4: final_columns equals the spec replay -/

theorem cols_foldl_warnOnly (f : SimState → String → SimState)
    (hf : ∀ s c, (f s c).cols = s.cols) :
    ∀ (cs : List String) (st : SimState), (cs.foldl f st).cols = st.cols := by
  intro cs
  induction cs with
  | nil => intro st; rfl
  | cons c cs ih => intro st; rw [List.foldl_cons, ih, hf]

theorem renameEntryStep_cols (idx : Nat) (st : SimState) (p : String × String) :
    (renameEntryStep idx st p).cols =
      if st.cols.contains p.1 && !(pyStrip p.2 == "") then setAdd (st.cols.erase p.1) p.2
      else st.cols := by
  unfold renameEntryStep
  by_cases hb : pyStrip p.2 == ""
  · rw [if_pos hb]
    simp [hb]
  · rw [if_neg hb]
    by_cases hm : st.cols.contains p.1
    · rw [if_neg (by simpa using hm), if_pos (by simpa [hb] using hm)]
    · rw [if_pos (by simpa using hm),
        if_neg (by simp; intro h; exact absurd h (by simpa using hm))]

theorem cols_foldl_rename (idx : Nat) :
    ∀ (mapping : List (String × String)) (st : SimState),
      (mapping.foldl (renameEntryStep idx) st).cols =
        mapping.foldl
          (fun cs p =>
            if cs.contains p.1 && !(pyStrip p.2 == "") then setAdd (cs.erase p.1) p.2
            else cs) st.cols := by
  intro mapping
  induction mapping with
  | nil => intro st; rfl
  | cons p ps ih =>
    intro st
    rw [List.foldl_cons, List.foldl_cons, ih]
    congr 1
    exact renameEntryStep_cols idx st p

theorem dropEntryStep_cols (idx : Nat) (st : SimState) (c : String) :
    ((if !(st.cols.contains c) then
        ({ st with warnings := st.warnings ++
            [⟨actColumnsPath idx, missingColMsg "drop_columns" c⟩] } : SimState)
      else { st with cols := st.cols.erase c }) : SimState).cols = st.cols.erase c := by
  by_cases hm : st.cols.contains c
  · rw [if_neg (by simpa using hm)]
  · rw [if_pos (by simpa using hm)]
    exact (List.erase_of_not_mem (by simpa using hm)).symm

theorem cols_foldl_drop (idx : Nat) :
    ∀ (columns : List String) (st : SimState),
      (columns.foldl
        (fun s c =>
          if !(s.cols.contains c) then
            { s with warnings := s.warnings ++
                [⟨actColumnsPath idx, missingColMsg "drop_columns" c⟩] }
          else { s with cols := s.cols.erase c }) st).cols =
        columns.foldl (fun cs c => cs.erase c) st.cols := by
  intro columns
  induction columns with
  | nil => intro st; rfl
  | cons c cs ih =>
    intro st
    rw [List.foldl_cons, List.foldl_cons, ih]
    congr 1
    exact dropEntryStep_cols idx st c

theorem simStep_cols (idx : Nat) (a : Action) (st : SimState) :
    (simStep idx a st).cols = specReplayStep st.cols a := by
  cases a with
  | rename_columns mapping =>
    simp only [simStep, specReplayStep]
    by_cases hm : mapping.isEmpty
    · have : mapping = [] := List.isEmpty_iff.mp hm
      subst this
      simp
    · rw [if_neg hm]
      have h1 := cols_foldl_rename idx mapping
      by_cases hd : (findDupes ((mapping.map Prod.snd).filter
          (fun v => !(pyStrip v == "")))).isEmpty
      · simp only [hd, if_pos]
        exact h1 st
      · simp only [hd, if_neg, Bool.false_eq_true, not_false_eq_true]
        exact h1 _
  | drop_columns columns =>
    simp only [simStep, specReplayStep]
    by_cases he : columns.isEmpty
    · simp only [he, if_pos]
      exact cols_foldl_drop idx columns _
    · simp only [he, Bool.false_eq_true, not_false_eq_true, if_neg]
      exact cols_foldl_drop idx columns st
  | trim_whitespace columns =>
    cases columns with
    | none => rfl
    | some cs =>
      simp only [simStep, specReplayStep]
      split <;> exact cols_foldl_warnOnly _ (by intro s c; split <;> rfl) cs _
  | standardize_nulls toks => rfl
  | parse_numeric columns nt ac ath ft =>
    simp only [simStep, specReplayStep]
    split <;> exact cols_foldl_warnOnly _ (by intro s c; split <;> rfl) columns _
  | parse_dates columns df of =>
    simp only [simStep, specReplayStep]
    split <;> exact cols_foldl_warnOnly _ (by intro s c; split <;> rfl) columns _
  | deduplicate_rows subset =>
    cases subset with
    | none => rfl
    | some cs =>
      simp only [simStep, specReplayStep]
      split <;> exact cols_foldl_warnOnly _ (by intro s c; split <;> rfl) cs _
  | unknownAction t => rfl

theorem runSimFrom_cols : ∀ (as : List Action) (i : Nat) (st : SimState),
    (runSimFrom i as st).cols = as.foldl specReplayStep st.cols := by
  intro as
  induction as with
  | nil => intro i st; rfl
  | cons a as ih =>
    intro i st
    rw [List.foldl_cons, runSimFrom, ih, simStep_cols]

/-- **C4**: with a known column set, `final_columns` is exactly the
sorted set obtained by replaying the rename and drop actions (as the
spec words them) against the initial set; and on the spec example —
rename `A` to `B` with `B` required, input columns `["A"]` — the result
is `["B"]` with no warnings at all. -/
theorem final_columns_eq_spec_replay (plan : CleaningPlan) (dcols : List String) :
    (validate_plan plan (some dcols)).final_columns =
      some (specFinalColumns dcols plan.actions) ∧
    (validate_plan
        { version := "1", summary := "",
          actions := [.rename_columns [("A", "B")]],
          validations := { required := [{ column := "B" }] } }
        (some ["A"])).final_columns = some ["B"] ∧
    (validate_plan
        { version := "1", summary := "",
          actions := [.rename_columns [("A", "B")]],
          validations := { required := [{ column := "B" }] } }
        (some ["A"])).warnings = [] := by
  refine ⟨?_, by decide, by decide⟩
  simp only [validate_plan, specFinalColumns]
  rw [runSimFrom_cols]

/-! ### Substring and path lemmas (claims C2, C3, C8) -/

theorem listStarts_append (p q r : List Char) (h : listStarts p q = true) :
    listStarts p (q ++ r) = true := by
  induction p generalizing q with
  | nil => rfl
  | cons a as ih =>
    cases q with
    | nil => simp [listStarts] at h
    | cons b bs =>
      simp only [listStarts, Bool.and_eq_true] at h
      simp only [List.cons_append, listStarts, Bool.and_eq_true]
      exact ⟨h.1, ih bs h.2⟩

theorem listSub_of_starts (p l : List Char) (h : listStarts p l = true) :
    listSub p l = true := by
  cases l with
  | nil =>
    cases p with
    | nil => rfl
    | cons a as => simp [listStarts] at h
  | cons b bs => simp [listSub, h]

theorem listSub_append_right (p x y : List Char) (h : listSub p y = true) :
    listSub p (x ++ y) = true := by
  induction x with
  | nil => simpa using h
  | cons a as ih =>
    simp only [List.cons_append, listSub, Bool.or_eq_true]
    exact Or.inr ih

theorem listSub_append_left (p x y : List Char) (h : listSub p x = true) :
    listSub p (x ++ y) = true := by
  induction x with
  | nil =>
    simp only [listSub] at h
    have : p = [] := by
      cases p with
      | nil => rfl
      | cons a as => simp [List.isEmpty] at h
    subst this
    cases y with
    | nil => rfl
    | cons b bs => simp [listSub, listStarts]
  | cons a as ih =>
    simp only [listSub, Bool.or_eq_true] at h
    simp only [List.cons_append, listSub, Bool.or_eq_true]
    cases h with
    | inl hs => exact Or.inl (listStarts_append p (a :: as) y hs)
    | inr hs => exact Or.inr (ih hs)

theorem get?_append_lt {α : Type} : ∀ (l1 l2 : List α) (k : Nat), k < l1.length →
    (l1 ++ l2).get? k = l1.get? k := by
  intro l1
  induction l1 with
  | nil => intro l2 k hk; simp at hk
  | cons a as ih =>
    intro l2 k hk
    cases k with
    | zero => rfl
    | succ j => exact ih l2 j (by simpa using hk)

theorem strGet_append (p s : String) (k : Nat) (hk : k < p.data.length) :
    (p ++ s).data.get? k = p.data.get? k := by
  rw [String.data_append]
  exact get?_append_lt _ _ _ hk

theorem rangePath_head : ∀ i, (rangePath i).data.get? 12 = some 'r' := by
  intro i
  unfold rangePath
  rw [strGet_append _ _ 12 (by decide)]
  rfl

theorem enumPath_head : ∀ i, (enumPath i).data.get? 12 = some 'e' := by
  intro i
  unfold enumPath
  rw [strGet_append _ _ 12 (by decide)]
  rfl

theorem actMappingPath_head : ∀ i, (actMappingPath i).data.get? 0 = some 'a' := by
  intro i
  unfold actMappingPath
  rw [strGet_append _ _ 0 (by decide)]
  rfl

theorem actActionPath_head : ∀ i, (actActionPath i).data.get? 0 = some 'a' := by
  intro i
  unfold actActionPath
  rw [strGet_append _ _ 0 (by decide)]
  rfl

theorem rangePath_head0 : ∀ i, (rangePath i).data.get? 0 = some 'v' := by
  intro i
  unfold rangePath
  rw [strGet_append _ _ 0 (by decide)]
  rfl

theorem enumPath_head0 : ∀ i, (enumPath i).data.get? 0 = some 'v' := by
  intro i
  unfold enumPath
  rw [strGet_append _ _ 0 (by decide)]
  rfl

theorem rangePath_ne_enumPath (i j : Nat) : rangePath i ≠ enumPath j := by
  intro h
  have h12 := congrArg (fun s => s.data.get? 12) h
  simp only [rangePath_head, enumPath_head] at h12
  simp at h12

theorem version_ne_rangePath (i : Nat) : ("version" : String) ≠ rangePath i := by
  intro h
  have h12 := congrArg (fun s => s.data.get? 12) h
  simp only [rangePath_head] at h12
  simp at h12

theorem version_ne_enumPath (i : Nat) : ("version" : String) ≠ enumPath i := by
  intro h
  have h12 := congrArg (fun s => s.data.get? 12) h
  simp only [enumPath_head] at h12
  simp at h12

theorem rangePath_inj {i j : Nat} (h : rangePath i = rangePath j) : i = j := by
  have hd := congrArg String.data h
  unfold rangePath at hd
  rw [String.data_append, String.data_append, String.data_append, String.data_append] at hd
  have h1 := List.append_cancel_left hd
  have h2 := List.append_cancel_right h1
  exact natDigits_injective h2

theorem enumPath_inj {i j : Nat} (h : enumPath i = enumPath j) : i = j := by
  have hd := congrArg String.data h
  unfold enumPath at hd
  rw [String.data_append, String.data_append, String.data_append, String.data_append] at hd
  have h1 := List.append_cancel_left hd
  have h2 := List.append_cancel_right h1
  exact natDigits_injective h2

/-- Boolean path test used for counting errors per rule. -/
def pathIs (p : String) (e : VEntry) : Bool :=
  e.path == p

theorem rangePath_beq_false {n m : Nat} (h : n ≠ m) :
    (rangePath n == rangePath m) = false :=
  beq_eq_false_iff_ne.mpr (fun hc => h (rangePath_inj hc))

theorem enumPath_beq_false {n m : Nat} (h : n ≠ m) :
    (enumPath n == enumPath m) = false :=
  beq_eq_false_iff_ne.mpr (fun hc => h (enumPath_inj hc))

theorem rangeErrsFrom_countP_lt : ∀ (rs : List RangeRule) (n m : Nat), m < n →
    (rangeErrsFrom n rs).countP (pathIs (rangePath m)) = 0 := by
  intro rs
  induction rs with
  | nil => intro n m _; rfl
  | cons rr rs ih =>
    intro n m hm
    simp only [rangeErrsFrom]
    rw [List.countP_append, ih (n + 1) m (by omega)]
    have hne : (rangePath n == rangePath m) = false := rangePath_beq_false (by omega)
    rcases rr.min with _ | mn <;> rcases rr.max with _ | mx <;>
      simp [List.countP_cons, pathIs, hne]
    intro _ hc
    have := rangePath_inj hc
    omega

theorem enumErrsFrom_countP_lt : ∀ (rs : List EnumRule) (n m : Nat), m < n →
    (enumErrsFrom n rs).countP (pathIs (enumPath m)) = 0 := by
  intro rs
  induction rs with
  | nil => intro n m _; rfl
  | cons er rs ih =>
    intro n m hm
    simp only [enumErrsFrom]
    rw [List.countP_append, ih (n + 1) m (by omega)]
    have hne : (enumPath n == enumPath m) = false := enumPath_beq_false (by omega)
    split <;> simp [List.countP_cons, pathIs, hne]

theorem rangeErrsFrom_countP_at : ∀ (rs : List RangeRule) (n i : Nat) (rr : RangeRule)
    (mn mx : ℚ), rs.get? i = some rr → rr.min = some mn → rr.max = some mx → mx < mn →
    (rangeErrsFrom n rs).countP (pathIs (rangePath (n + i))) = 1 := by
  intro rs
  induction rs with
  | nil => intro n i rr mn mx hg; simp at hg
  | cons rr0 rs ih =>
    intro n i rr mn mx hg hmin hmax hlt
    cases i with
    | zero =>
      have : rr0 = rr := by simpa using hg
      subst this
      simp only [rangeErrsFrom, hmin, hmax]
      rw [List.countP_append, rangeErrsFrom_countP_lt rs (n + 1) (n + 0) (by omega)]
      rw [if_pos hlt]
      simp [List.countP_cons, pathIs]
    | succ i2 =>
      have hg2 : rs.get? i2 = some rr := by simpa using hg
      have hrw : n + (i2 + 1) = (n + 1) + i2 := by omega
      rw [hrw]
      simp only [rangeErrsFrom]
      rw [List.countP_append, ih (n + 1) i2 rr mn mx hg2 hmin hmax hlt]
      have hne : (rangePath n == rangePath ((n + 1) + i2)) = false :=
        rangePath_beq_false (by omega)
      rcases rr0.min with _ | a <;> rcases rr0.max with _ | b <;>
        simp [List.countP_cons, pathIs, hne]
      intro _ hc
      have := rangePath_inj hc
      omega

theorem enumErrsFrom_countP_at : ∀ (rs : List EnumRule) (n i : Nat) (er : EnumRule),
    rs.get? i = some er → er.allowed = [] →
    (enumErrsFrom n rs).countP (pathIs (enumPath (n + i))) = 1 := by
  intro rs
  induction rs with
  | nil => intro n i er hg; simp at hg
  | cons er0 rs ih =>
    intro n i er hg hemp
    cases i with
    | zero =>
      have : er0 = er := by simpa using hg
      subst this
      simp only [enumErrsFrom, hemp]
      rw [List.countP_append, enumErrsFrom_countP_lt rs (n + 1) (n + 0) (by omega)]
      simp [List.countP_cons, pathIs]
    | succ i2 =>
      have hg2 : rs.get? i2 = some er := by simpa using hg
      have hrw : n + (i2 + 1) = (n + 1) + i2 := by omega
      rw [hrw]
      simp only [enumErrsFrom]
      rw [List.countP_append, ih (n + 1) i2 er hg2 hemp]
      have hne : (enumPath n == enumPath ((n + 1) + i2)) = false :=
        enumPath_beq_false (by omega)
      split <;> simp [List.countP_cons, pathIs, hne]

theorem enumErrsFrom_countP_at_nonempty : ∀ (rs : List EnumRule) (n i : Nat)
    (er : EnumRule), rs.get? i = some er → er.allowed ≠ [] →
    (enumErrsFrom n rs).countP (pathIs (enumPath (n + i))) = 0 := by
  intro rs
  induction rs with
  | nil => intro n i er hg; simp at hg
  | cons er0 rs ih =>
    intro n i er hg hne
    cases i with
    | zero =>
      have heq : er0 = er := by simpa using hg
      have hnotempty : er0.allowed.isEmpty = false := by
        rw [heq]
        cases her : er.allowed with
        | nil => exact absurd her hne
        | cons a as => rfl
      simp only [enumErrsFrom, hnotempty]
      rw [List.countP_append, enumErrsFrom_countP_lt rs (n + 1) (n + 0) (by omega)]
      simp
    | succ i2 =>
      have hg2 : rs.get? i2 = some er := by simpa using hg
      have hrw : n + (i2 + 1) = (n + 1) + i2 := by omega
      rw [hrw]
      simp only [enumErrsFrom]
      rw [List.countP_append, ih (n + 1) i2 er hg2 hne]
      have hne2 : (enumPath n == enumPath ((n + 1) + i2)) = false :=
        enumPath_beq_false (by omega)
      split <;> simp [List.countP_cons, pathIs, hne2]

theorem enumErrsFrom_countP_rangePath : ∀ (rs : List EnumRule) (n i : Nat),
    (enumErrsFrom n rs).countP (pathIs (rangePath i)) = 0 := by
  intro rs
  induction rs with
  | nil => intro n i; rfl
  | cons er rs ih =>
    intro n i
    simp only [enumErrsFrom]
    rw [List.countP_append, ih (n + 1) i]
    have hne : (enumPath n == rangePath i) = false :=
      beq_eq_false_iff_ne.mpr (fun hc => rangePath_ne_enumPath i n hc.symm)
    split <;> simp [List.countP_cons, pathIs, hne]

theorem rangeErrsFrom_countP_enumPath : ∀ (rs : List RangeRule) (n i : Nat),
    (rangeErrsFrom n rs).countP (pathIs (enumPath i)) = 0 := by
  intro rs
  induction rs with
  | nil => intro n i; rfl
  | cons rr rs ih =>
    intro n i
    simp only [rangeErrsFrom]
    rw [List.countP_append, ih (n + 1) i]
    have hne : (rangePath n == enumPath i) = false :=
      beq_eq_false_iff_ne.mpr (rangePath_ne_enumPath n i)
    rcases rr.min with _ | a <;> rcases rr.max with _ | b <;>
      simp [List.countP_cons, pathIs, hne]
    intro _ hc
    exact rangePath_ne_enumPath n i hc

theorem mem_rangeErrsFrom_shape : ∀ (rs : List RangeRule) (n : Nat) (e : VEntry),
    e ∈ rangeErrsFrom n rs →
    ∃ j mn mx col, e = ⟨rangePath j, rangeMsg mn mx col⟩ := by
  intro rs
  induction rs with
  | nil => intro n e he; simp [rangeErrsFrom] at he
  | cons rr rs ih =>
    intro n e he
    simp only [rangeErrsFrom, List.mem_append] at he
    cases he with
    | inl hb =>
      rcases hm1 : rr.min with _ | mn <;> rcases hm2 : rr.max with _ | mx <;>
        simp [hm1, hm2] at hb
      exact ⟨n, mn, mx, rr.column, hb.2⟩
    | inr ht => exact ih (n + 1) e ht

theorem mem_enumErrsFrom_message : ∀ (rs : List EnumRule) (n : Nat) (e : VEntry)
    (i : Nat) (er : EnumRule), rs.get? i = some er → e ∈ enumErrsFrom n rs →
    e.path = enumPath (n + i) → e.message = enumEmptyMsg er.column := by
  intro rs
  induction rs with
  | nil => intro n e i er hg; simp at hg
  | cons er0 rs ih =>
    intro n e i er hg he hp
    simp only [enumErrsFrom, List.mem_append] at he
    cases he with
    | inl hb =>
      by_cases hemp : er0.allowed.isEmpty
      · rw [if_pos hemp] at hb
        simp only [List.mem_singleton] at hb
        subst hb
        simp only at hp
        have : n = n + i := enumPath_inj hp
        have hi : i = 0 := by omega
        subst hi
        have : er0 = er := by simpa using hg
        subst this
        rfl
      · rw [if_neg hemp] at hb
        simp at hb
    | inr ht =>
      cases i with
      | zero =>
        exfalso
        have hsh : ∃ j, (n + 1) ≤ j ∧ e.path = enumPath j := by
          clear hp hg ih
          induction rs generalizing n with
          | nil => simp [enumErrsFrom] at ht
          | cons x xs ih2 =>
            simp only [enumErrsFrom, List.mem_append] at ht
            cases ht with
            | inl hb2 =>
              by_cases hx : x.allowed.isEmpty
              · rw [if_pos hx] at hb2
                simp only [List.mem_singleton] at hb2
                subst hb2
                exact ⟨n + 1, le_refl _, rfl⟩
              · rw [if_neg hx] at hb2; simp at hb2
            | inr ht2 =>
              obtain ⟨j, hj1, hj2⟩ := ih2 (n + 1) ht2
              exact ⟨j, by omega, hj2⟩
        obtain ⟨j, hj1, hj2⟩ := hsh
        rw [hj2] at hp
        have := enumPath_inj hp
        omega
      | succ i2 =>
        have hg2 : rs.get? i2 = some er := by simpa using hg
        have hrw : n + (i2 + 1) = (n + 1) + i2 := by omega
        exact ih (n + 1) e i2 er hg2 ht (by rw [← hrw]; exact hp)

/-! ### Decomposition of the validator error list

The simulation only ever appends errors whose path starts at an
`actions[...]` site, so the validation-spec errors of
`_validate_validations` pass through unchanged. -/

theorem errors_foldl_pres (f : SimState → String → SimState)
    (hf : ∀ s c, (f s c).errors = s.errors) :
    ∀ (cs : List String) (st : SimState), (cs.foldl f st).errors = st.errors := by
  intro cs
  induction cs with
  | nil => intro st; rfl
  | cons c cs ih => intro st; rw [List.foldl_cons, ih, hf]

theorem rename_fold_errors (idx : Nat) :
    ∀ (mapping : List (String × String)) (st : SimState),
      ∃ ex, (mapping.foldl (renameEntryStep idx) st).errors = st.errors ++ ex ∧
        ∀ e ∈ ex, e.path = actMappingPath idx := by
  intro mapping
  induction mapping with
  | nil => intro st; exact ⟨[], (List.append_nil _).symm, by simp⟩
  | cons p ps ih =>
    intro st
    obtain ⟨ex2, h2, hall2⟩ := ih (renameEntryStep idx st p)
    have hstep : ∃ e0, (renameEntryStep idx st p).errors = st.errors ++ e0 ∧
        ∀ e ∈ e0, e.path = actMappingPath idx := by
      unfold renameEntryStep
      by_cases hb : pyStrip p.2 == ""
      · rw [if_pos hb]
        exact ⟨[⟨actMappingPath idx, renameBlankMsg p.1⟩], rfl, by simp⟩
      · rw [if_neg hb]
        split <;> exact ⟨[], (List.append_nil _).symm, by simp⟩
    obtain ⟨e0, h0, hall0⟩ := hstep
    refine ⟨e0 ++ ex2, ?_, ?_⟩
    · rw [List.foldl_cons, h2, h0, List.append_assoc]
    · intro e he
      cases List.mem_append.mp he with
      | inl h => exact hall0 e h
      | inr h => exact hall2 e h

theorem simStep_errors_decomp (idx : Nat) (a : Action) (st : SimState) :
    ∃ ex, (simStep idx a st).errors = st.errors ++ ex ∧
      ∀ e ∈ ex, e.path.data.get? 0 = some 'a' := by
  cases a with
  | rename_columns mapping =>
    simp only [simStep]
    by_cases hm : mapping.isEmpty
    · rw [if_pos hm]
      exact ⟨[], (List.append_nil _).symm, by simp⟩
    · rw [if_neg hm]
      have hst1 : ∀ st1 : SimState, st1.errors = st.errors →
          ∃ ex, (mapping.foldl (renameEntryStep idx) st1).errors = st.errors ++ ex ∧
            ∀ e ∈ ex, e.path.data.get? 0 = some 'a' := by
        intro st1 h1
        obtain ⟨ex, hex, hall⟩ := rename_fold_errors idx mapping st1
        rw [h1] at hex
        exact ⟨ex, hex, fun e he => by rw [hall e he]; exact actMappingPath_head idx⟩
      split
      · exact hst1 _ rfl
      · exact hst1 _ rfl
  | drop_columns columns =>
    simp only [simStep]
    have hpres := errors_foldl_pres
      (fun s c =>
        if !(s.cols.contains c) then
          { s with warnings := s.warnings ++
              [⟨actColumnsPath idx, missingColMsg "drop_columns" c⟩] }
        else { s with cols := s.cols.erase c })
      (by intro s c; dsimp only; split <;> rfl) columns
    split <;>
      exact ⟨[], by rw [hpres, List.append_nil], by simp⟩
  | trim_whitespace columns =>
    cases columns with
    | none => exact ⟨[], (List.append_nil _).symm, by simp⟩
    | some cs =>
      simp only [simStep]
      have hpres := errors_foldl_pres
        (fun s c =>
          if s.cols.contains c then s
          else { s with warnings := s.warnings ++
              [⟨actColumnsPath idx, missingColMsg "trim_whitespace" c⟩] })
        (by intro s c; dsimp only; split <;> rfl) cs
      split <;>
        exact ⟨[], by rw [hpres, List.append_nil], by simp⟩
  | standardize_nulls toks => exact ⟨[], (List.append_nil _).symm, by simp⟩
  | parse_numeric columns nt ac ath ft =>
    simp only [simStep]
    have hpres := errors_foldl_pres
      (fun s c =>
        if s.cols.contains c then s
        else { s with warnings := s.warnings ++
            [⟨actColumnsPath idx, missingColMsg "parse_numeric" c⟩] })
      (by intro s c; dsimp only; split <;> rfl) columns
    split <;>
      exact ⟨[], by rw [hpres, List.append_nil], by simp⟩
  | parse_dates columns df of =>
    simp only [simStep]
    have hpres := errors_foldl_pres
      (fun s c =>
        if s.cols.contains c then s
        else { s with warnings := s.warnings ++
            [⟨actColumnsPath idx, missingColMsg "parse_dates" c⟩] })
      (by intro s c; dsimp only; split <;> rfl) columns
    split <;>
      exact ⟨[], by rw [hpres, List.append_nil], by simp⟩
  | deduplicate_rows subset =>
    cases subset with
    | none => exact ⟨[], (List.append_nil _).symm, by simp⟩
    | some cs =>
      simp only [simStep]
      have hpres := errors_foldl_pres
        (fun s c =>
          if s.cols.contains c then s
          else { s with warnings := s.warnings ++
              [⟨actSubsetPath idx,
                "deduplicate_rows subset references missing column " ++ pyQ ++ c ++ pyQ⟩] })
        (by intro s c; dsimp only; split <;> rfl) cs
      split <;>
        exact ⟨[], by rw [hpres, List.append_nil], by simp⟩
  | unknownAction t =>
    exact ⟨[⟨actActionPath idx, unknownActionMsg t⟩], rfl,
      by intro e he; simp at he; rw [he]; exact actActionPath_head idx⟩

theorem runSim_errors_decomp : ∀ (as : List Action) (n : Nat) (st : SimState),
    ∃ ex, (runSimFrom n as st).errors = st.errors ++ ex ∧
      ∀ e ∈ ex, e.path.data.get? 0 = some 'a' := by
  intro as
  induction as with
  | nil => intro n st; exact ⟨[], (List.append_nil _).symm, by simp⟩
  | cons a as ih =>
    intro n st
    obtain ⟨ex1, h1, hall1⟩ := simStep_errors_decomp n a st
    obtain ⟨ex2, h2, hall2⟩ := ih (n + 1) (simStep n a st)
    refine ⟨ex1 ++ ex2, ?_, ?_⟩
    · rw [runSimFrom, h2, h1, List.append_assoc]
    · intro e he
      cases List.mem_append.mp he with
      | inl h => exact hall1 e h
      | inr h => exact hall2 e h

theorem validate_errors_decomp (plan : CleaningPlan) (dfc : Option (List String)) :
    ∃ extra, (validate_plan plan dfc).errors = (validate_plan plan none).errors ++ extra ∧
      ∀ e ∈ extra, e.path.data.get? 0 = some 'a' := by
  cases dfc with
  | none => exact ⟨[], (List.append_nil _).symm, by simp⟩
  | some dcols =>
    simp only [validate_plan]
    exact runSim_errors_decomp plan.actions 0 _

theorem validate_ok_isEmpty (plan : CleaningPlan) (dfc : Option (List String)) :
    (validate_plan plan dfc).ok = (validate_plan plan dfc).errors.isEmpty := by
  cases dfc <;> rfl

/-! ### Message content lemmas -/

theorem mem_enumErrsFrom_shape : ∀ (rs : List EnumRule) (n : Nat) (e : VEntry),
    e ∈ enumErrsFrom n rs → ∃ j col, e = ⟨enumPath j, enumEmptyMsg col⟩ := by
  intro rs
  induction rs with
  | nil => intro n e he; simp [enumErrsFrom] at he
  | cons er rs ih =>
    intro n e he
    simp only [enumErrsFrom, List.mem_append] at he
    cases he with
    | inl hb =>
      by_cases hemp : er.allowed.isEmpty
      · rw [if_pos hemp] at hb
        simp only [List.mem_singleton] at hb
        exact ⟨n, er.column, hb⟩
      · rw [if_neg hemp] at hb
        simp at hb
    | inr ht => exact ih (n + 1) e ht

theorem rangeMsg_mentions (mn mx : ℚ) (col : String) :
    strHas "min" (pyLower (rangeMsg mn mx col)) = true ∧
    strHas "max" (pyLower (rangeMsg mn mx col)) = true := by
  unfold rangeMsg strHas pyLower
  simp only [String.data_append, List.map_append, List.append_assoc]
  constructor
  · apply listSub_append_left
    decide
  · apply listSub_append_right
    apply listSub_append_right
    apply listSub_append_left
    decide

/-- **C2**: any plan with a range rule carrying both bounds inverted
produces exactly one error at that rule's path; every error at that
path mentions `min` and `max` (case-insensitively); and the result has
`ok = false`. Holds with or without a known column set. -/
theorem range_rule_inverted_single_error (plan : CleaningPlan)
    (dfc : Option (List String)) (i : Nat) (rr : RangeRule) (mn mx : ℚ)
    (hg : plan.validations.ranges.get? i = some rr)
    (hmin : rr.min = some mn) (hmax : rr.max = some mx) (hlt : mx < mn) :
    (validate_plan plan dfc).errors.countP (pathIs (rangePath i)) = 1 ∧
    (∀ e ∈ (validate_plan plan dfc).errors, e.path = rangePath i →
      strHas "min" (pyLower e.message) = true ∧
        strHas "max" (pyLower e.message) = true) ∧
    (validate_plan plan dfc).ok = false := by
  obtain ⟨extra, hdec, hex⟩ := validate_errors_decomp plan dfc
  have hnone : (validate_plan plan none).errors =
      (if pyStrip plan.version == "" then
        [(⟨"version", "Version must be a non-empty string"⟩ : VEntry)] else []) ++
        (rangeErrsFrom 0 plan.validations.ranges ++
          enumErrsFrom 0 plan.validations.enums) := by
    simp only [validate_plan]
    rw [List.append_assoc]
  have hextra0 : extra.countP (pathIs (rangePath i)) = 0 := by
    apply List.countP_eq_zero.mpr
    intro e he
    have ha := hex e he
    by_cases hq : e.path = rangePath i
    · rw [hq, rangePath_head0 i] at ha
      simp at ha
    · simp [pathIs, hq]
  have hv0 : (if pyStrip plan.version == "" then
      [(⟨"version", "Version must be a non-empty string"⟩ : VEntry)] else
        []).countP (pathIs (rangePath i)) = 0 := by
    split
    · simp [List.countP_cons, pathIs,
        beq_eq_false_iff_ne.mpr (version_ne_rangePath i)]
    · rfl
  have hr1 : (rangeErrsFrom 0 plan.validations.ranges).countP
      (pathIs (rangePath i)) = 1 := by
    have := rangeErrsFrom_countP_at plan.validations.ranges 0 i rr mn mx hg hmin hmax hlt
    simpa using this
  have he0 : (enumErrsFrom 0 plan.validations.enums).countP
      (pathIs (rangePath i)) = 0 := enumErrsFrom_countP_rangePath _ 0 i
  have hcount : (validate_plan plan dfc).errors.countP (pathIs (rangePath i)) = 1 := by
    rw [hdec, List.countP_append, hnone, List.countP_append, List.countP_append,
      hv0, hr1, he0, hextra0]
  refine ⟨hcount, ?_, ?_⟩
  · intro e he hpath
    rw [hdec, hnone] at he
    rcases List.mem_append.mp he with h | hx
    · rcases List.mem_append.mp h with ha | hb
      · exfalso
        revert ha
        split
        · intro ha
          simp only [List.mem_singleton] at ha
          rw [ha] at hpath
          exact version_ne_rangePath i hpath
        · intro ha
          simp at ha
      · rcases List.mem_append.mp hb with hr | hen
        · obtain ⟨j, mn2, mx2, col2, hshape⟩ := mem_rangeErrsFrom_shape _ 0 e hr
          rw [hshape]
          exact rangeMsg_mentions mn2 mx2 col2
        · exfalso
          obtain ⟨j, col2, hshape⟩ := mem_enumErrsFrom_shape _ 0 e hen
          rw [hshape] at hpath
          exact rangePath_ne_enumPath i j hpath.symm
    · exfalso
      have ha := hex e hx
      rw [hpath, rangePath_head0 i] at ha
      simp at ha
  · rw [validate_ok_isEmpty]
    cases herr : (validate_plan plan dfc).errors with
    | nil => rw [herr] at hcount; simp at hcount
    | cons x xs => rfl

/-- Witness for C2 at the spec example `{column:"Score", min:10, max:0}`. -/
theorem range_rule_inverted_single_error_witness :
    (({ version := "1", summary := "bad range",
        validations := { ranges := [{ column := "Score", min := some 10, max := some 0 }] } }
          : CleaningPlan).validations.ranges.get? 0 =
        some { column := "Score", min := some 10, max := some 0 } ∧
      ((0 : ℚ) < 10)) ∧
    ((validate_plan
        { version := "1", summary := "bad range",
          validations := { ranges := [{ column := "Score", min := some 10, max := some 0 }] } }
        none).errors.countP (pathIs (rangePath 0)) = 1 ∧
      (∀ e ∈ (validate_plan
          { version := "1", summary := "bad range",
            validations := { ranges := [{ column := "Score", min := some 10, max := some 0 }] } }
          none).errors, e.path = rangePath 0 →
        strHas "min" (pyLower e.message) = true ∧
          strHas "max" (pyLower e.message) = true) ∧
      (validate_plan
        { version := "1", summary := "bad range",
          validations := { ranges := [{ column := "Score", min := some 10, max := some 0 }] } }
        none).ok = false) :=
  ⟨⟨rfl, by norm_num⟩,
    range_rule_inverted_single_error _ none 0
      { column := "Score", min := some 10, max := some 0 } 10 0 rfl rfl rfl (by norm_num)⟩

/-! ### Warnings extension lemmas and claim C3 -/

theorem warnings_foldl_extend {α : Type} (f : SimState → α → SimState)
    (hf : ∀ s c, ∃ e0, (f s c).warnings = s.warnings ++ e0) :
    ∀ (cs : List α) (st : SimState),
      ∃ ex, (cs.foldl f st).warnings = st.warnings ++ ex := by
  intro cs
  induction cs with
  | nil => intro st; exact ⟨[], (List.append_nil _).symm⟩
  | cons c cs ih =>
    intro st
    obtain ⟨e0, h0⟩ := hf st c
    obtain ⟨ex, hex⟩ := ih (f st c)
    exact ⟨e0 ++ ex, by rw [List.foldl_cons, hex, h0, List.append_assoc]⟩

theorem warnings_extend_compose {base mid final : List VEntry}
    (h1 : ∃ e0, mid = base ++ e0) (h2 : ∃ e1, final = mid ++ e1) :
    ∃ ex, final = base ++ ex := by
  obtain ⟨e0, h0⟩ := h1
  obtain ⟨e1, he1⟩ := h2
  exact ⟨e0 ++ e1, by rw [he1, h0, List.append_assoc]⟩

theorem simStep_warnings_extend (idx : Nat) (a : Action) (st : SimState) :
    ∃ ex, (simStep idx a st).warnings = st.warnings ++ ex := by
  have happend : ∀ (st1 : SimState) (w : VEntry),
      ({ st1 with warnings := st1.warnings ++ [w] } : SimState).warnings =
        st1.warnings ++ [w] := fun _ _ => rfl
  cases a with
  | rename_columns mapping =>
    simp only [simStep]
    by_cases hm : mapping.isEmpty
    · rw [if_pos hm]
      exact ⟨_, rfl⟩
    · rw [if_neg hm]
      have hfold : ∀ st1 : SimState, ∃ ex,
          (mapping.foldl (renameEntryStep idx) st1).warnings = st1.warnings ++ ex := by
        intro st1
        apply warnings_foldl_extend
        intro s p
        unfold renameEntryStep
        by_cases hb : pyStrip p.2 == ""
        · rw [if_pos hb]; exact ⟨[], (List.append_nil _).symm⟩
        · rw [if_neg hb]
          split
          · exact ⟨_, rfl⟩
          · exact ⟨[], (List.append_nil _).symm⟩
      split
      · exact hfold st
      · exact warnings_extend_compose ⟨_, rfl⟩ (hfold _)
  | drop_columns columns =>
    simp only [simStep]
    have hfold : ∀ st1 : SimState, ∃ ex,
        (columns.foldl
          (fun s c =>
            if !(s.cols.contains c) then
              { s with warnings := s.warnings ++
                  [⟨actColumnsPath idx, missingColMsg "drop_columns" c⟩] }
            else { s with cols := s.cols.erase c }) st1).warnings =
          st1.warnings ++ ex := by
      intro st1
      apply warnings_foldl_extend
      intro s c
      dsimp only
      split
      · exact ⟨_, rfl⟩
      · exact ⟨[], (List.append_nil _).symm⟩
    split
    · exact warnings_extend_compose ⟨_, rfl⟩ (hfold _)
    · exact hfold st
  | trim_whitespace columns =>
    cases columns with
    | none => exact ⟨[], (List.append_nil _).symm⟩
    | some cs =>
      simp only [simStep]
      have hfold : ∀ st1 : SimState, ∃ ex,
          (cs.foldl
            (fun s c =>
              if s.cols.contains c then s
              else { s with warnings := s.warnings ++
                  [⟨actColumnsPath idx, missingColMsg "trim_whitespace" c⟩] }) st1).warnings =
            st1.warnings ++ ex := by
        intro st1
        apply warnings_foldl_extend
        intro s c
        dsimp only
        split
        · exact ⟨[], (List.append_nil _).symm⟩
        · exact ⟨_, rfl⟩
      split
      · exact warnings_extend_compose ⟨_, rfl⟩ (hfold _)
      · exact hfold st
  | standardize_nulls toks => exact ⟨[], (List.append_nil _).symm⟩
  | parse_numeric columns nt ac ath ft =>
    simp only [simStep]
    have hfold : ∀ st1 : SimState, ∃ ex,
        (columns.foldl
          (fun s c =>
            if s.cols.contains c then s
            else { s with warnings := s.warnings ++
                [⟨actColumnsPath idx, missingColMsg "parse_numeric" c⟩] }) st1).warnings =
          st1.warnings ++ ex := by
      intro st1
      apply warnings_foldl_extend
      intro s c
      dsimp only
      split
      · exact ⟨[], (List.append_nil _).symm⟩
      · exact ⟨_, rfl⟩
    split
    · exact warnings_extend_compose ⟨_, rfl⟩ (hfold _)
    · exact hfold st
  | parse_dates columns df of =>
    simp only [simStep]
    have hfold : ∀ st1 : SimState, ∃ ex,
        (columns.foldl
          (fun s c =>
            if s.cols.contains c then s
            else { s with warnings := s.warnings ++
                [⟨actColumnsPath idx, missingColMsg "parse_dates" c⟩] }) st1).warnings =
          st1.warnings ++ ex := by
      intro st1
      apply warnings_foldl_extend
      intro s c
      dsimp only
      split
      · exact ⟨[], (List.append_nil _).symm⟩
      · exact ⟨_, rfl⟩
    split
    · exact warnings_extend_compose ⟨_, rfl⟩ (hfold _)
    · exact hfold st
  | deduplicate_rows subset =>
    cases subset with
    | none => exact ⟨[], (List.append_nil _).symm⟩
    | some cs =>
      simp only [simStep]
      have hfold : ∀ st1 : SimState, ∃ ex,
          (cs.foldl
            (fun s c =>
              if s.cols.contains c then s
              else { s with warnings := s.warnings ++
                  [⟨actSubsetPath idx,
                    "deduplicate_rows subset references missing column " ++
                      pyQ ++ c ++ pyQ⟩] }) st1).warnings =
            st1.warnings ++ ex := by
        intro st1
        apply warnings_foldl_extend
        intro s c
        dsimp only
        split
        · exact ⟨[], (List.append_nil _).symm⟩
        · exact ⟨_, rfl⟩
      split
      · exact warnings_extend_compose ⟨_, rfl⟩ (hfold _)
      · exact hfold st
  | unknownAction t => exact ⟨[], (List.append_nil _).symm⟩

theorem runSim_warnings_extend : ∀ (as : List Action) (n : Nat) (st : SimState),
    ∃ ex, (runSimFrom n as st).warnings = st.warnings ++ ex := by
  intro as
  induction as with
  | nil => intro n st; exact ⟨[], (List.append_nil _).symm⟩
  | cons a as ih =>
    intro n st
    obtain ⟨ex1, h1⟩ := simStep_warnings_extend n a st
    obtain ⟨ex2, h2⟩ := ih (n + 1) (simStep n a st)
    exact ⟨ex1 ++ ex2, by rw [runSimFrom, h2, h1, List.append_assoc]⟩

theorem validate_warnings_mem (plan : CleaningPlan) (dfc : Option (List String))
    (w : VEntry) (hw : w ∈ (validate_plan plan none).warnings) :
    w ∈ (validate_plan plan dfc).warnings := by
  cases dfc with
  | none => exact hw
  | some dcols =>
    simp only [validate_plan] at hw ⊢
    obtain ⟨ex, hex⟩ := runSim_warnings_extend plan.actions 0
      ⟨dcols.dedup,
        (if pyStrip plan.version == "" then
          [(⟨"version", "Version must be a non-empty string"⟩ : VEntry)] else []) ++
          rangeErrsFrom 0 plan.validations.ranges ++
          enumErrsFrom 0 plan.validations.enums,
        (if (findDupes (plan.validations.required.map (fun r => r.column))).isEmpty then []
          else [(⟨"validations.required",
            dupReqMsg (sortStrings (findDupes
              (plan.validations.required.map (fun r => r.column))))⟩ : VEntry)]) ++
          enumWarnsFrom 0 plan.validations.enums⟩
    rw [List.mem_append]
    left
    rw [hex, List.mem_append]
    exact Or.inl hw

theorem enumWarnsFrom_mem_at : ∀ (rs : List EnumRule) (n i : Nat) (er : EnumRule),
    rs.get? i = some er → (∃ v ∈ er.allowed, pyStrip v = "") →
    (⟨enumPath (n + i), enumBlankMsg er.column⟩ : VEntry) ∈ enumWarnsFrom n rs := by
  intro rs
  induction rs with
  | nil => intro n i er hg; simp at hg
  | cons er0 rs ih =>
    intro n i er hg hblank
    cases i with
    | zero =>
      have : er0 = er := by simpa using hg
      subst this
      obtain ⟨v, hv, hb⟩ := hblank
      have hany : er0.allowed.any (fun v => pyStrip v == "") = true :=
        List.any_eq_true.mpr ⟨v, hv, beq_iff_eq.mpr hb⟩
      simp only [enumWarnsFrom, hany, if_pos, List.mem_append]
      left
      simp
    | succ i2 =>
      have hg2 : rs.get? i2 = some er := by simpa using hg
      have hrw : n + (i2 + 1) = (n + 1) + i2 := by omega
      rw [hrw]
      simp only [enumWarnsFrom, List.mem_append]
      exact Or.inr (ih (n + 1) i2 er hg2 hblank)

/-- **C3**: an enum rule with an empty allowed list yields exactly one
error at that rule's path, whose message states the allowed list cannot
be empty, and `ok = false`; an enum rule whose allowed list contains a
blank entry yields the blank-entry warning at that path and no error
there. Holds with or without a known column set. -/
theorem enum_rule_empty_and_blank (plan : CleaningPlan) (dfc : Option (List String))
    (i : Nat) (er : EnumRule) (hg : plan.validations.enums.get? i = some er) :
    (er.allowed = [] →
      (validate_plan plan dfc).errors.countP (pathIs (enumPath i)) = 1 ∧
      (∀ e ∈ (validate_plan plan dfc).errors, e.path = enumPath i →
        e.message = enumEmptyMsg er.column) ∧
      (validate_plan plan dfc).ok = false) ∧
    ((∃ v ∈ er.allowed, pyStrip v = "") →
      (validate_plan plan dfc).errors.countP (pathIs (enumPath i)) = 0 ∧
      (∃ w ∈ (validate_plan plan dfc).warnings, w.path = enumPath i ∧
        w.message = enumBlankMsg er.column)) := by
  obtain ⟨extra, hdec, hex⟩ := validate_errors_decomp plan dfc
  have hnone : (validate_plan plan none).errors =
      (if pyStrip plan.version == "" then
        [(⟨"version", "Version must be a non-empty string"⟩ : VEntry)] else []) ++
        (rangeErrsFrom 0 plan.validations.ranges ++
          enumErrsFrom 0 plan.validations.enums) := by
    simp only [validate_plan]
    rw [List.append_assoc]
  have hextra0 : extra.countP (pathIs (enumPath i)) = 0 := by
    apply List.countP_eq_zero.mpr
    intro e he
    have ha := hex e he
    by_cases hq : e.path = enumPath i
    · rw [hq, enumPath_head0 i] at ha
      simp at ha
    · simp [pathIs, hq]
  have hv0 : (if pyStrip plan.version == "" then
      [(⟨"version", "Version must be a non-empty string"⟩ : VEntry)] else
        []).countP (pathIs (enumPath i)) = 0 := by
    split
    · simp [List.countP_cons, pathIs,
        beq_eq_false_iff_ne.mpr (version_ne_enumPath i)]
    · rfl
  have hr0 : (rangeErrsFrom 0 plan.validations.ranges).countP
      (pathIs (enumPath i)) = 0 := rangeErrsFrom_countP_enumPath _ 0 i
  constructor
  · intro hemp
    have he1 : (enumErrsFrom 0 plan.validations.enums).countP
        (pathIs (enumPath i)) = 1 := by
      have := enumErrsFrom_countP_at plan.validations.enums 0 i er hg hemp
      simpa using this
    have hcount : (validate_plan plan dfc).errors.countP (pathIs (enumPath i)) = 1 := by
      rw [hdec, List.countP_append, hnone, List.countP_append, List.countP_append,
        hv0, hr0, he1, hextra0]
    refine ⟨hcount, ?_, ?_⟩
    · intro e he hpath
      rw [hdec, hnone] at he
      rcases List.mem_append.mp he with h | hx
      · rcases List.mem_append.mp h with ha | hb
        · exfalso
          revert ha
          split
          · intro ha
            simp only [List.mem_singleton] at ha
            rw [ha] at hpath
            exact version_ne_enumPath i hpath
          · intro ha
            simp at ha
        · rcases List.mem_append.mp hb with hr | hen
          · exfalso
            obtain ⟨j, mn2, mx2, col2, hshape⟩ := mem_rangeErrsFrom_shape _ 0 e hr
            rw [hshape] at hpath
            exact rangePath_ne_enumPath j i hpath
          · have := mem_enumErrsFrom_message plan.validations.enums 0 e i er hg hen
              (by simpa using hpath)
            exact this
      · exfalso
        have ha := hex e hx
        rw [hpath, enumPath_head0 i] at ha
        simp at ha
    · rw [validate_ok_isEmpty]
      cases herr : (validate_plan plan dfc).errors with
      | nil => rw [herr] at hcount; simp at hcount
      | cons x xs => rfl
  · intro hblank
    have hne : er.allowed ≠ [] := by
      obtain ⟨v, hv, _⟩ := hblank
      intro h
      rw [h] at hv
      simp at hv
    have he0 : (enumErrsFrom 0 plan.validations.enums).countP
        (pathIs (enumPath i)) = 0 := by
      have := enumErrsFrom_countP_at_nonempty plan.validations.enums 0 i er hg hne
      simpa using this
    refine ⟨?_, ?_⟩
    · rw [hdec, List.countP_append, hnone, List.countP_append, List.countP_append,
        hv0, hr0, he0, hextra0]
    · have hw : (⟨enumPath i, enumBlankMsg er.column⟩ : VEntry) ∈
          (validate_plan plan none).warnings := by
        have hmem := enumWarnsFrom_mem_at plan.validations.enums 0 i er hg hblank
        simp only [Nat.zero_add] at hmem
        simp only [validate_plan, List.mem_append]
        exact Or.inr hmem
      exact ⟨_, validate_warnings_mem plan dfc _ hw, rfl, rfl⟩

/-- Witness for C3: the spec example `{column:"Rating", allowed: []}`,
together with a second rule whose allowed list holds a blank entry. -/
theorem enum_rule_empty_and_blank_witness :
    (({ version := "1", summary := "bad enum",
        validations := { enums := [{ column := "Rating", allowed := [] },
          { column := "Level", allowed := [" "] }] } } : CleaningPlan).validations.enums.get? 0 =
        some { column := "Rating", allowed := [] } ∧
      ((validate_plan
          { version := "1", summary := "bad enum",
            validations := { enums := [{ column := "Rating", allowed := [] },
              { column := "Level", allowed := [" "] }] } }
          none).errors.countP (pathIs (enumPath 0)) = 1 ∧
        (∀ e ∈ (validate_plan
            { version := "1", summary := "bad enum",
              validations := { enums := [{ column := "Rating", allowed := [] },
                { column := "Level", allowed := [" "] }] } }
            none).errors, e.path = enumPath 0 →
          e.message = enumEmptyMsg "Rating") ∧
        (validate_plan
          { version := "1", summary := "bad enum",
            validations := { enums := [{ column := "Rating", allowed := [] },
              { column := "Level", allowed := [" "] }] } }
          none).ok = false)) ∧
    ((validate_plan
        { version := "1", summary := "bad enum",
          validations := { enums := [{ column := "Rating", allowed := [] },
            { column := "Level", allowed := [" "] }] } }
        none).errors.countP (pathIs (enumPath 1)) = 0 ∧
      (∃ w ∈ (validate_plan
          { version := "1", summary := "bad enum",
            validations := { enums := [{ column := "Rating", allowed := [] },
              { column := "Level", allowed := [" "] }] } }
          none).warnings, w.path = enumPath 1 ∧ w.message = enumBlankMsg "Level")) := by
  constructor
  · refine ⟨rfl, ?_⟩
    exact (enum_rule_empty_and_blank
      { version := "1", summary := "bad enum",
        validations := { enums := [{ column := "Rating", allowed := [] },
          { column := "Level", allowed := [" "] }] } }
      none 0 _ rfl).1 rfl
  · exact (enum_rule_empty_and_blank
      { version := "1", summary := "bad enum",
        validations := { enums := [{ column := "Rating", allowed := [] },
          { column := "Level", allowed := [" "] }] } }
      none 1 _ rfl).2 ⟨" ", by simp, by decide⟩

/-! ### Claim C8: empty trim filter is a warning, not an error -/

/-- Counterexample to C8 as stated: a plan whose only action is
`trim_whitespace` with an explicit empty columns list validates against
known columns with NO errors (`ok = true`); the empty list surfaces
only as a warning, exactly like `parse_numeric` and `parse_dates`. -/
theorem trim_empty_list_not_error_counterexample :
    (validate_plan
        { version := "1", summary := "",
          actions := [.trim_whitespace (some [])] } (some ["A"])).errors = [] ∧
    (validate_plan
        { version := "1", summary := "",
          actions := [.trim_whitespace (some [])] } (some ["A"])).ok = true ∧
    (validate_plan
        { version := "1", summary := "",
          actions := [.trim_whitespace (some [])] } (some ["A"])).warnings =
      [⟨actColumnsPath 0, "trim_whitespace has empty columns list"⟩] :=
  ⟨by decide, by decide, by decide⟩

theorem warn_fold_missing (idx : Nat) (kind : String) :
    ∀ (cs : List String) (st : SimState) (c : String), c ∈ cs → c ∉ st.cols →
      ∃ w ∈ (cs.foldl
        (fun s c =>
          if s.cols.contains c then s
          else { s with warnings := s.warnings ++
              [⟨actColumnsPath idx, missingColMsg kind c⟩] }) st).warnings,
        w.path = actColumnsPath idx ∧ w.message = missingColMsg kind c := by
  intro cs
  induction cs with
  | nil => intro st c hc; simp at hc
  | cons c0 cs ih =>
    intro st c hc hnotin
    have hstep_cols : ∀ s : SimState,
        ((if s.cols.contains c0 then s
          else { s with warnings := s.warnings ++
              [⟨actColumnsPath idx, missingColMsg kind c0⟩] }) : SimState).cols = s.cols := by
      intro s; split <;> rfl
    rw [List.foldl_cons]
    cases List.mem_cons.mp hc with
    | inl he =>
      subst he
      have hcontain : st.cols.contains c = false := by
        by_cases h : st.cols.contains c
        · exact absurd (by simpa using h) hnotin
        · simpa using h
      obtain ⟨ex, hex⟩ := warnings_foldl_extend
        (fun s c =>
          if s.cols.contains c then s
          else { s with warnings := s.warnings ++
              [⟨actColumnsPath idx, missingColMsg kind c⟩] })
        (by intro s c2; dsimp only; split
            · exact ⟨[], (List.append_nil _).symm⟩
            · exact ⟨_, rfl⟩) cs _
      rw [hex]
      refine ⟨⟨actColumnsPath idx, missingColMsg kind c⟩, ?_, rfl, rfl⟩
      rw [hcontain]
      simp
    | inr ht =>
      have hnotin2 : c ∉ ((if st.cols.contains c0 then st
          else { st with warnings := st.warnings ++
              [⟨actColumnsPath idx, missingColMsg kind c0⟩] }) : SimState).cols := by
        rw [hstep_cols st]
        exact hnotin
      exact ih _ c ht hnotin2

/-- **C8 (amended)**: with a known column set, an explicit empty columns
list on `trim_whitespace` produces a warning — the same treatment as
`parse_numeric` and `parse_dates`, not a user error; in all three cases
a referenced column absent from the simulated set produces a warning,
and neither the column set nor the error list changes. -/
theorem trim_parse_empty_and_missing_warn (idx : Nat) (st : SimState)
    (cs : List String) (nt : NumericType) (ac ath ft df : Bool)
    (of : DateOutputFormat) :
    ((simStep idx (.trim_whitespace (some cs)) st).cols = st.cols ∧
      (simStep idx (.trim_whitespace (some cs)) st).errors = st.errors ∧
      (cs = [] → (simStep idx (.trim_whitespace (some cs)) st).warnings =
        st.warnings ++ [⟨actColumnsPath idx, "trim_whitespace has empty columns list"⟩]) ∧
      (∀ c ∈ cs, c ∉ st.cols →
        ∃ w ∈ (simStep idx (.trim_whitespace (some cs)) st).warnings,
          w.path = actColumnsPath idx ∧
            w.message = missingColMsg "trim_whitespace" c)) ∧
    ((simStep idx (.parse_numeric cs nt ac ath ft) st).cols = st.cols ∧
      (simStep idx (.parse_numeric cs nt ac ath ft) st).errors = st.errors ∧
      (cs = [] → (simStep idx (.parse_numeric cs nt ac ath ft) st).warnings =
        st.warnings ++ [⟨actColumnsPath idx, "parse_numeric has empty columns list"⟩]) ∧
      (∀ c ∈ cs, c ∉ st.cols →
        ∃ w ∈ (simStep idx (.parse_numeric cs nt ac ath ft) st).warnings,
          w.path = actColumnsPath idx ∧
            w.message = missingColMsg "parse_numeric" c)) ∧
    ((simStep idx (.parse_dates cs df of) st).cols = st.cols ∧
      (simStep idx (.parse_dates cs df of) st).errors = st.errors ∧
      (cs = [] → (simStep idx (.parse_dates cs df of) st).warnings =
        st.warnings ++ [⟨actColumnsPath idx, "parse_dates has empty columns list"⟩]) ∧
      (∀ c ∈ cs, c ∉ st.cols →
        ∃ w ∈ (simStep idx (.parse_dates cs df of) st).warnings,
          w.path = actColumnsPath idx ∧ w.message = missingColMsg "parse_dates" c)) := by
  refine ⟨⟨?_, ?_, ?_, ?_⟩, ⟨?_, ?_, ?_, ?_⟩, ⟨?_, ?_, ?_, ?_⟩⟩
  · rw [simStep_cols]; rfl
  · simp only [simStep]
    have hpres := errors_foldl_pres
      (fun s c =>
        if s.cols.contains c then s
        else { s with warnings := s.warnings ++
            [⟨actColumnsPath idx, missingColMsg "trim_whitespace" c⟩] })
      (by intro s c; dsimp only; split <;> rfl) cs
    split <;> rw [hpres]
  · intro hemp
    subst hemp
    simp [simStep]
  · intro c hc hnot
    simp only [simStep]
    split <;> exact warn_fold_missing idx "trim_whitespace" cs _ c hc hnot
  · rw [simStep_cols]; rfl
  · simp only [simStep]
    have hpres := errors_foldl_pres
      (fun s c =>
        if s.cols.contains c then s
        else { s with warnings := s.warnings ++
            [⟨actColumnsPath idx, missingColMsg "parse_numeric" c⟩] })
      (by intro s c; dsimp only; split <;> rfl) cs
    split <;> rw [hpres]
  · intro hemp
    subst hemp
    simp [simStep]
  · intro c hc hnot
    simp only [simStep]
    split <;> exact warn_fold_missing idx "parse_numeric" cs _ c hc hnot
  · rw [simStep_cols]; rfl
  · simp only [simStep]
    have hpres := errors_foldl_pres
      (fun s c =>
        if s.cols.contains c then s
        else { s with warnings := s.warnings ++
            [⟨actColumnsPath idx, missingColMsg "parse_dates" c⟩] })
      (by intro s c; dsimp only; split <;> rfl) cs
    split <;> rw [hpres]
  · intro hemp
    subst hemp
    simp [simStep]
  · intro c hc hnot
    simp only [simStep]
    split <;> exact warn_fold_missing idx "parse_dates" cs _ c hc hnot

/-- Witness for the amended C8 at a concrete state: a missing column
`B` warned on, and the set and errors untouched. -/
theorem trim_parse_empty_and_missing_warn_witness :
    ("B" ∈ ["B"] ∧ "B" ∉ (⟨["A"], [], []⟩ : SimState).cols) ∧
    ((simStep 0 (.trim_whitespace (some ["B"])) ⟨["A"], [], []⟩).cols = ["A"] ∧
      (simStep 0 (.trim_whitespace (some ["B"])) ⟨["A"], [], []⟩).errors = [] ∧
      (∃ w ∈ (simStep 0 (.trim_whitespace (some ["B"])) ⟨["A"], [], []⟩).warnings,
        w.path = actColumnsPath 0 ∧ w.message = missingColMsg "trim_whitespace" "B")) := by
  have h := trim_parse_empty_and_missing_warn 0 ⟨["A"], [], []⟩ ["B"]
    NumericType.float false true true false DateOutputFormat.iso_date
  refine ⟨⟨by decide, by decide⟩, h.1.1, h.1.2.1, ?_⟩
  exact h.1.2.2.2 "B" (by decide) (by decide)

/-- Witness for C7 at a concrete cell with a decimal part. -/
theorem parse_numeric_int_no_dot_witness :
    '.' ∉ (parse_numeric_cell NumericType.int false true true "1,234.56").data :=
  parse_numeric_int_no_dot false true true "1,234.56"

end CsvCleaner
